import Mathlib

/-!
# Verification of the yuka NavMesh core (src/src/graph/navmesh/NavMesh.js)

A shallow embedding of the navigation-mesh build pipeline and its query
surface.  The half-edge web is represented, following the design of the
source, as an arena of edge records addressed by stable integer handles;
mutation rewrites handles.  Numeric fields are modelled as exact rationals:
every claim proved here is about control flow and structural state, not
about floating-point rounding.

External collaborators that are not part of this repository's source
(vector math, `Polygon.convex`, `Polygon.contains`, the A* search) are
modelled as parameters or, where a concrete instance is needed for a
witness, as definitions modelled from the specification text.
-/

namespace Yuka

/-- A 3D point with exact rational coordinates.  `Vector3.equals` in the
source compares componentwise, which is structural equality here. -/
structure Vec3 where
  x : ℚ
  y : ℚ
  z : ℚ
deriving DecidableEq, Repr

instance : Inhabited Vec3 := ⟨⟨0, 0, 0⟩⟩

def vadd (a b : Vec3) : Vec3 := ⟨a.x + b.x, a.y + b.y, a.z + b.z⟩

def vsub (a b : Vec3) : Vec3 := ⟨a.x - b.x, a.y - b.y, a.z - b.z⟩

def smul (a : Vec3) (q : ℚ) : Vec3 := ⟨a.x * q, a.y * q, a.z * q⟩

def dot (a b : Vec3) : ℚ := a.x * b.x + a.y * b.y + a.z * b.z

/-- `Vector3.squaredDistanceTo`. -/
def sqDistV (a b : Vec3) : ℚ := dot (vsub a b) (vsub a b)

/-- One half-edge record of the arena.  `next`, `prev` are handles into the
edge arena, `twin` an optional handle, `polygon` a handle into the polygon
arena.  `nodeIndex` is modelled from the spec: a navigation node "carries a
stable non-negative integer index" once assigned; before assignment it holds
the sentinel `-1` (the same sentinel the assignment pass uses internally). -/
structure HalfEdge where
  vertex : Vec3
  next : Nat
  prev : Nat
  twin : Option Nat
  polygon : Nat
  nodeIndex : Int
deriving DecidableEq, Repr

instance : Inhabited HalfEdge := ⟨⟨default, 0, 0, none, 0, -1⟩⟩

/-- A polygon: a cyclic boundary entered through `edge`, plus the centroid
computed at the end of region building (modelled from the spec: "owns a
computed centroid (mean of vertex positions)"). -/
structure Poly where
  edge : Nat
  centroid : Vec3
deriving DecidableEq, Repr

instance : Inhabited Poly := ⟨⟨0, default⟩⟩

/-- The NavMesh's mesh-side state: the edge arena, the polygon arena and the
set of active regions (polygon handles, in insertion order, as a JS `Set`
iterates in insertion order). -/
structure MeshState where
  edges : List HalfEdge
  polys : List Poly
  regions : List Nat
deriving DecidableEq, Repr

/-- Arena read: out-of-range handles yield the default record. -/
def geta {α : Type} [Inhabited α] (l : List α) (i : Nat) : α := l.getD i default

/-- Arena write: rewrite the record at handle `i` in place. -/
def seta {α : Type} [Inhabited α] (l : List α) (i : Nat) (f : α → α) : List α :=
  l.set i (f (geta l i))

theorem length_seta {α : Type} [Inhabited α] (l : List α) (i : Nat) (f : α → α) :
    (seta l i f).length = l.length := by
  simp [seta]

theorem geta_oob {α : Type} [Inhabited α] (l : List α) (i : Nat) (h : l.length ≤ i) :
    geta l i = default := by
  simp [geta, List.getD_eq_getElem?_getD, List.getElem?_eq_none h]

theorem geta_seta_eq {α : Type} [Inhabited α] (l : List α) (i : Nat) (f : α → α)
    (h : i < l.length) : geta (seta l i f) i = f (geta l i) := by
  simp [seta, geta, List.getD_eq_getElem?_getD, List.getElem?_set_self', h]

theorem geta_seta_ne {α : Type} [Inhabited α] (l : List α) (i j : Nat) (f : α → α)
    (h : i ≠ j) : geta (seta l i f) j = geta l j := by
  simp [seta, geta, List.getD_eq_getElem?_getD, List.getElem?_set_ne h]

/-- Accessors on the mesh state (the source's `edge.from()` is the edge's
own vertex, `edge.to()` the next edge's vertex). -/
def edgeAt (s : MeshState) (i : Nat) : HalfEdge := geta s.edges i

def vertexOf (s : MeshState) (i : Nat) : Vec3 := (edgeAt s i).vertex

def nextOf (s : MeshState) (i : Nat) : Nat := (edgeAt s i).next

def prevOf (s : MeshState) (i : Nat) : Nat := (edgeAt s i).prev

def twinOf (s : MeshState) (i : Nat) : Option Nat := (edgeAt s i).twin

def polyOf (s : MeshState) (i : Nat) : Nat := (edgeAt s i).polygon

def nodeIdxOf (s : MeshState) (i : Nat) : Int := (edgeAt s i).nodeIndex

def fromOf (s : MeshState) (i : Nat) : Vec3 := vertexOf s i

def toOf (s : MeshState) (i : Nat) : Vec3 := vertexOf s (nextOf s i)

def polyAt (s : MeshState) (p : Nat) : Poly := geta s.polys p

def polyEdgeOf (s : MeshState) (p : Nat) : Nat := (polyAt s p).edge

/-- Field writers. -/
def setNext (s : MeshState) (i v : Nat) : MeshState :=
  { s with edges := seta s.edges i (fun e => { e with next := v }) }

def setPrev (s : MeshState) (i v : Nat) : MeshState :=
  { s with edges := seta s.edges i (fun e => { e with prev := v }) }

def setTwin (s : MeshState) (i : Nat) (v : Option Nat) : MeshState :=
  { s with edges := seta s.edges i (fun e => { e with twin := v }) }

def setPolyEdge (s : MeshState) (p : Nat) (v : Nat) : MeshState :=
  { s with polys := seta s.polys p (fun q => { q with edge := v }) }

/-- Walk a cycle of `next` pointers starting at `start`, collecting handles
until the walk returns to `start`; the fuel bounds the walk exactly like the
arena size bounds any well-formed cycle (a do-while in the source). -/
def cycleFrom (nextF : Nat → Nat) (start : Nat) : Nat → Nat → List Nat
  | _, 0 => []
  | cur, fuel + 1 =>
      cur :: (if nextF cur = start then [] else cycleFrom nextF start (nextF cur) fuel)

/-- The boundary cycle of edge handles entered at `start`. -/
def cycleIds (s : MeshState) (start : Nat) : List Nat :=
  cycleFrom (fun i => nextOf s i) start start s.edges.length

/-- The cycle's vertex positions in boundary order. -/
def cycleVerts (s : MeshState) (start : Nat) : List Vec3 :=
  (cycleIds s start).map (fun i => vertexOf s i)

/-! ## fromPolygons: edge list and twin discovery -/

/-- `initialEdgeList`: for each input polygon in order, every edge of its
boundary cycle. -/
def initialEdgeList (s : MeshState) : List Nat :=
  (List.range s.polys.length).flatMap (fun p => cycleIds s (polyEdgeOf s p))

/-- The geometric twin condition the discovery scan tests:
edge0.from() equals edge1.to() and edge0.to() equals edge1.from(). -/
def edgeMatches (s : MeshState) (e0 e1 : Nat) : Bool :=
  decide (fromOf s e0 = toOf s e1 ∧ toOf s e0 = fromOf s e1)

/-- `edge.squaredLength()`. -/
def sqLenOf (s : MeshState) (i : Nat) : ℚ := sqDistV (fromOf s i) (toOf s i)

/-- An entry of the merge worklist: the squared length of the shared edge
and the recorded half-edge. -/
structure SEntry where
  cost : ℚ
  edge : Nat
deriving DecidableEq, Repr

/-- One turn of the twin-discovery scan: if `e0` has no twin yet, search the
whole initial edge list for the first geometric reverse match; on a match
set both twin references and record a worklist entry. -/
def twinStep (l : List Nat) (acc : MeshState × List SEntry) (e0 : Nat) :
    MeshState × List SEntry :=
  let (s, es) := acc
  if twinOf s e0 ≠ none then acc
  else
    match l.find? (fun e1 => edgeMatches s e0 e1) with
    | none => acc
    | some e1 =>
        let s1 := setTwin s e0 (some e1)
        let s2 := setTwin s1 e1 (some e0)
        (s2, es ++ [⟨sqLenOf s2 e0, e0⟩])

/-- The full twin-discovery pass over the initial edge list. -/
def twinDiscovery (s : MeshState) (l : List Nat) : MeshState × List SEntry :=
  l.foldl (twinStep l) (s, [])

/-- Stable insertion preserving descending order of `cost` (ties keep the
earlier element first, matching the source's stable sort with the
`descending` comparator). -/
def insertDesc (x : SEntry) : List SEntry → List SEntry
  | [] => [x]
  | y :: ys => if x.cost < y.cost then y :: insertDesc x ys else x :: y :: ys

/-- Stable descending sort of the worklist by cost. -/
def sortDesc (l : List SEntry) : List SEntry := l.foldr insertDesc []

/-! ## Region building (destructive merge with rollback) -/

/-- The splice: relink the four boundary edges around the candidate and its
twin so the two cycles become one, then repoint the surviving polygon's
entry edge to `candidate.prev`.  Reads happen at the moment of the
corresponding source statement. -/
def spliceState (s : MeshState) (c t : Nat) : MeshState :=
  -- candidate.prev.next = candidate.twin.next
  let s1 := setNext s (prevOf s c) (nextOf s t)
  -- candidate.next.prev = candidate.twin.prev
  let s2 := setPrev s1 (nextOf s1 c) (prevOf s1 t)
  -- candidate.twin.prev.next = candidate.next
  let s3 := setNext s2 (prevOf s2 t) (nextOf s2 c)
  -- candidate.twin.next.prev = candidate.prev
  let s4 := setPrev s3 (nextOf s3 t) (prevOf s3 c)
  -- polygon.edge = candidate.prev
  setPolyEdge s4 (polyOf s4 c) (prevOf s4 c)

/-- One worklist candidate of `_buildRegions`: splice, test convexity with
the external test `cv`, then either commit (repoint the merged cycle's
polygon references and drop the obsolete region) or restore the cached
linkage.  The cached references are those read before the splice. -/
def regionStep (cv : List Vec3 → Bool) (s : MeshState) (entry : SEntry) : MeshState :=
  let c := entry.edge
  match twinOf s c with
  | none => s  -- unreachable: every recorded worklist entry carries a twin
  | some t =>
      -- cache current references for possible restore
      let cPrev := prevOf s c
      let cNext := nextOf s c
      let tPrev := prevOf s t
      let tNext := nextOf s t
      let s5 := spliceState s c t
      let p := polyOf s5 c
      if cv (cycleVerts s5 (polyEdgeOf s5 p)) then
        -- commit: correct the polygon reference of every edge of the new cycle
        let cyc := cycleIds s5 (polyEdgeOf s5 p)
        let s6 : MeshState :=
          { s5 with edges := cyc.foldl (fun es i => seta es i (fun e => { e with polygon := p })) s5.edges }
        -- delete the obsolete polygon (entry.edge.twin.polygon, read now)
        { s6 with regions := s6.regions.erase (polyOf s6 t) }
      else
        -- restore
        let r1 := setNext s5 cPrev c
        let r2 := setPrev r1 cNext c
        let r3 := setNext r2 tPrev t
        let r4 := setPrev r3 tNext t
        setPolyEdge r4 p c

/-- Set a region's centroid to the mean of its cycle's vertex positions
(modelled from the spec: `computeCentroid` is external to the core). -/
def setCentroid (s : MeshState) (p : Nat) : MeshState :=
  let vs := cycleVerts s (polyEdgeOf s p)
  let n : ℚ := vs.length
  let c := smul (vs.foldl vadd ⟨0, 0, 0⟩) (1 / n)
  { s with polys := seta s.polys p (fun q => { q with centroid := c }) }

/-- `_buildRegions`: process the worklist from longest to shortest shared
edge, then compute every surviving region's centroid. -/
def buildRegions (cv : List Vec3 → Bool) (s : MeshState) (entries : List SEntry) : MeshState :=
  let s1 := entries.foldl (regionStep cv) s
  s1.regions.foldl setCentroid s1

/-! ## Node index assignment -/

/-- The state threaded through `_buildNodeIndices`: the edge arena, the
`indicesMap` in insertion order (index, position) and the next free index. -/
structure NIState where
  edges : List HalfEdge
  imap : List (Nat × Vec3)
  nidx : Nat
deriving DecidableEq, Repr

/-- Scan all existing entries of the indices map in insertion order for the
first one holding a position equal to `p`. -/
def lookupIdx (m : List (Nat × Vec3)) (p : Vec3) : Option Nat :=
  (m.find? (fun ip => ip.2 = p)).map (fun ip => ip.1)

def setNodeIdx (es : List HalfEdge) (i : Nat) (v : Int) : List HalfEdge :=
  seta es i (fun e => { e with nodeIndex := v })

/-- One edge of the `_buildNodeIndices` walk: only edges with a twin are
considered; reuse the index of a previously seen equal position or allocate
the next sequential one, then assign it to the edge and to
`edge.twin.next`. -/
def niStep (st : NIState) (i : Nat) : NIState :=
  match (geta st.edges i).twin with
  | none => st
  | some t =>
      let pos := (geta st.edges i).vertex
      let (k, m, nx) :=
        match lookupIdx st.imap pos with
        | some k => (k, st.imap, st.nidx)
        | none => (st.nidx, st.imap ++ [(st.nidx, pos)], st.nidx + 1)
      let e1 := setNodeIdx st.edges i (Int.ofNat k)
      let tn := (geta e1 t).next
      let e2 := setNodeIdx e1 tn (Int.ofNat k)
      ⟨e2, m, nx⟩

/-- All edge handles of all surviving regions' cycles, in walk order.  The
walk only ever writes `nodeIndex` fields, which the `next` pointers do not
depend on, so the per-region do-while walks of the source are exactly the
concatenation of the cycles read off the incoming state. -/
def allCycleEdges (s : MeshState) : List Nat :=
  s.regions.flatMap (fun r => cycleIds s (polyEdgeOf s r))

def buildNodeIndicesRun (s : MeshState) : NIState :=
  (allCycleEdges s).foldl niStep ⟨s.edges, [], 0⟩

/-- `_buildNodeIndices`. -/
def buildNodeIndices (s : MeshState) : MeshState :=
  { s with edges := (buildNodeIndicesRun s).edges }

/-! ## The navigation graph -/

structure NavNode where
  index : Int
  position : Vec3
deriving DecidableEq, Repr

/-- A directed navigation edge.  `from` is a Lean keyword, so the source's
`from`/`to` fields are `frm`/`tov` here.  The cost the source stores is the
Euclidean distance between the two node positions, computed by the external
`Vector3.distanceTo`; the whole graph build is parametric in that external
distance function `dist`. -/
structure NavEdge where
  frm : Int
  tov : Int
  cost : ℚ
deriving DecidableEq, Repr

structure Graph where
  nodes : List NavNode
  gedges : List NavEdge
deriving DecidableEq, Repr

def Graph.empty : Graph := ⟨[], []⟩

def hasNode (g : Graph) (i : Int) : Bool := g.nodes.any (fun n => n.index == i)

def addNode (g : Graph) (n : NavNode) : Graph := { g with nodes := g.nodes ++ [n] }

/-- `graph.getNode(i).position`; the source dereferences the node
unconditionally and would fail on a missing index, which the build never
produces — a missing index yields the default position here. -/
def getNodePos (g : Graph) (i : Int) : Vec3 :=
  match g.nodes.find? (fun n => n.index == i) with
  | some n => n.position
  | none => default

def hasEdge (g : Graph) (a b : Int) : Bool :=
  g.gedges.any (fun e => e.frm == a && e.tov == b)

def addEdge (g : Graph) (e : NavEdge) : Graph := { g with gedges := g.gedges ++ [e] }

/-- The walk of one region in the first phase of `_buildGraph`: push
`edge.nodeIndex` and `edge.twin.nodeIndex` for every twin-bearing edge and
insert a navigation node for `edge.nodeIndex` when absent (position =
`edge.from()`). -/
def graphGatherStep (s : MeshState) (acc : Graph × List Int) (i : Nat) : Graph × List Int :=
  match twinOf s i with
  | none => acc
  | some t =>
      let (g, l) := acc
      let l1 := l ++ [nodeIdxOf s i, nodeIdxOf s t]
      let g1 := if hasNode g (nodeIdxOf s i) then g
                else addNode g ⟨nodeIdxOf s i, vertexOf s i⟩
      (g1, l1)

/-- The node indices one region exposes through its twin-bearing edges. -/
def gatherRegion (s : MeshState) (r : Nat) : List Int :=
  ((cycleIds s (polyEdgeOf s r)).foldl (graphGatherStep s) (Graph.empty, [])).2

/-- Phase one of `_buildGraph` over all regions: the graph holding all
navigation nodes, and one gathered index list per region. -/
def graphNodesPass (s : MeshState) : Graph × List (List Int) :=
  s.regions.foldl
    (fun (acc : Graph × List (List Int)) r =>
      let (g1, l) := (cycleIds s (polyEdgeOf s r)).foldl (graphGatherStep s) (acc.1, [])
      (g1, acc.2 ++ [l]))
    (Graph.empty, [])

/-- Insert the directed edge `a → b` when `a ≠ b` and it is not yet present,
weighted by the external distance between the two node positions. -/
def addPair (dist : Vec3 → Vec3 → ℚ) (g : Graph) (a b : Int) : Graph :=
  if a ≠ b then
    if hasEdge g a b then g
    else addEdge g ⟨a, b, dist (getNodePos g a) (getNodePos g b)⟩
  else g

def addPairsFor (dist : Vec3 → Vec3 → ℚ) (g : Graph) (l : List Int) : Graph :=
  l.foldl (fun g1 a => l.foldl (fun g2 b => addPair dist g2 a b) g1) g

/-- `_buildGraph`: gather nodes and per-region index lists, then add every
ordered pair of distinct indices of each list as a navigation edge. -/
def buildGraph (dist : Vec3 → Vec3 → ℚ) (s : MeshState) : Graph :=
  let (g, ls) := graphNodesPass s
  ls.foldl (addPairsFor dist) g

/-- `fromPolygons`: clear, register every input polygon as a region, link
twins, sort the shared-edge worklist by descending length, build regions,
assign node indices and emit the navigation graph. -/
def fromPolygons (cv : List Vec3 → Bool) (dist : Vec3 → Vec3 → ℚ) (s : MeshState) :
    MeshState × Graph :=
  let s1 : MeshState := { s with regions := List.range s.polys.length }
  let disc := twinDiscovery s1 (initialEdgeList s1)
  let s3 := buildRegions cv disc.1 (sortDesc disc.2)
  let s4 := buildNodeIndices s3
  (s4, buildGraph dist s4)

/-! ## Query engine

`Polygon.contains(point, epsilon)` is external to this repository's source;
the whole query surface is parametric in a containment test `cnt` applied to
a region's boundary vertices.  `findPath` and `clampMovement` only ever call
it at the default epsilon, so the tolerance is baked into `cnt`. -/

/-- `getRegionForPoint`: the first region whose containment test succeeds. -/
def getRegionForPoint (s : MeshState) (cnt : List Vec3 → Vec3 → Bool) (p : Vec3) :
    Option Nat :=
  s.regions.find? (fun r => cnt (cycleVerts s (polyEdgeOf s r)) p)

/-- `getClosestRegion`: the region whose centroid minimizes the squared
distance to `point` (strict improvement, so the first minimum wins; `null`
on an empty region set). -/
def getClosestRegion (s : MeshState) (p : Vec3) : Option Nat :=
  (s.regions.foldl
    (fun (best : Option (Nat × ℚ)) r =>
      let d := sqDistV p (polyAt s r).centroid
      match best with
      | none => some (r, d)
      | some (_, dm) => if d < dm then some (r, d) else best)
    none).map (fun rb => rb.1)

/-- `getClosestNodeIndexInRegion`: walk the region boundary; a boundary
point is eligible when the edge or its predecessor carries a twin; score by
squared distance to `point`, plus squared distance to the target when one is
given; the winning index is the edge's own when it has a twin and
`edge.prev.twin.nodeIndex` otherwise. -/
def getClosestNodeIndexInRegion (s : MeshState) (p : Vec3) (region : Nat)
    (target : Option Vec3) : Option Int :=
  ((cycleIds s (polyEdgeOf s region)).foldl
    (fun (best : Option (Int × ℚ)) i =>
      if twinOf s i ≠ none ∨ twinOf s (prevOf s i) ≠ none then
        let d0 := sqDistV p (fromOf s i)
        let d := match target with
          | some tp => d0 + sqDistV tp (fromOf s i)
          | none => d0
        let idx := match twinOf s i with
          | some _ => nodeIdxOf s i
          | none => match twinOf s (prevOf s i) with
            | some pt => nodeIdxOf s pt
            | none => nodeIdxOf s i  -- unreachable under the eligibility guard
        match best with
        | none => some (idx, d)
        | some (_, dm) => if d < dm then some (idx, d) else best
      else best)
    none).map (fun rb => rb.1)

/-- The region a query point resolves to in `findPath`: `getRegionForPoint`,
falling back (independently per endpoint) to the closest region. -/
def resolveRegion (s : MeshState) (cnt : List Vec3 → Vec3 → Bool) (p : Vec3) : Option Nat :=
  match getRegionForPoint s cnt p with
  | some r => some r
  | none => getClosestRegion s p

def chosenSource (s : MeshState) (cnt : List Vec3 → Vec3 → Bool) (p q : Vec3) : Option Int :=
  match resolveRegion s cnt p with
  | some fr => getClosestNodeIndexInRegion s p fr (some q)
  | none => none

def chosenTarget (s : MeshState) (cnt : List Vec3 → Vec3 → Bool) (p q : Vec3) : Option Int :=
  match resolveRegion s cnt q with
  | some tr => getClosestNodeIndexInRegion s q tr (some p)
  | none => none

/-- Drop the run of leading path nodes still inside `region` except the last
of that run: `count` is the first position whose node lies outside the
region (the whole length when none does), and `splice(0, count - 1)` drops
`count - 1` elements (none when `count` is zero, as in the source where the
splice count is then negative). -/
def trimHead (s : MeshState) (cnt : List Vec3 → Vec3 → Bool) (g : Graph)
    (region : Nat) (path : List Int) : List Int :=
  let count := path.findIdx (fun i => ¬ cnt (cycleVerts s (polyEdgeOf s region)) (getNodePos g i))
  path.drop (count - 1)

/-- The search is the external A* of the spec: given the graph and the
chosen source and target node indices it either fails or yields the ordered
node-index route.  `findPath` is parametric in it. -/
def findPath (s : MeshState) (g : Graph) (cnt : List Vec3 → Vec3 → Bool)
    (search : Graph → Option Int → Option Int → Option (List Int))
    (a b : Vec3) : List Vec3 :=
  let fromRegion := resolveRegion s cnt a
  let toRegion := resolveRegion s cnt b
  if fromRegion = toRegion then
    -- no search necessary, directly create the path
    [a, b]
  else
    match fromRegion, toRegion with
    | some fr, some tr =>
        match search g (chosenSource s cnt a b) (chosenTarget s cnt a b) with
        | none => []
        | some shortest =>
            let p1 := trimHead s cnt g fr shortest
            let p2 := (trimHead s cnt g tr p1.reverse).reverse
            [a] ++ p2.map (fun i => getNodePos g i) ++ [b]
    | _, _ => []  -- unreachable: with a nonempty region set the fallback
                  -- always yields a region, and with an empty one both
                  -- resolutions are none and the equality branch fired

/-! ## Movement clamping -/

/-- The unclamped closest-point-on-segment parameter of the external line
segment math (modelled from the spec: "if the slide parameter keeps the
candidate within the segment's extent" — the parameter ranges over the whole
line).  A degenerate segment yields 0 by rational division by zero. -/
def segParam (a b p : Vec3) : ℚ :=
  dot (vsub p a) (vsub b a) / dot (vsub b a) (vsub b a)

/-- `lineSegment.at(t)`. -/
def segAt (a b : Vec3) (t : ℚ) : Vec3 := vadd a (smul (vsub b a) t)

/-- The closest-vertex scan of `clampMovement`: the boundary edge whose
`from()` vertex minimizes the squared distance to the start position
(strict improvement; the source starts from an infinite minimum, so the
first edge always enters). -/
def closestEdgeScan (s : MeshState) (p : Vec3) (cyc : List Nat) : Option Nat :=
  (cyc.foldl
    (fun (best : Option (Nat × ℚ)) i =>
      let d := sqDistV p (fromOf s i)
      match best with
      | none => some (i, d)
      | some (_, dm) => if d < dm then some (i, d) else best)
    none).map (fun rb => rb.1)

/-- The three-way segment selection of `clampMovement` around the closest
edge.  When both the closest edge and its predecessor carry twins none of
the three branches assigns the sliding edge `e` and parameter `t`; the
source then dereferences the unassigned `e`, which is `none` here. -/
def segSelect (s : MeshState) (startP : Vec3) (ce : Nat) : Option (Nat × ℚ) :=
  let pe := prevOf s ce
  match twinOf s ce, twinOf s pe with
  | some _, none =>
      some (pe, segParam (vertexOf s pe) (vertexOf s ce) startP)
  | none, some _ =>
      some (ce, segParam (vertexOf s ce) (vertexOf s (nextOf s ce)) startP)
  | none, none =>
      let t1 := segParam (vertexOf s pe) (vertexOf s ce) startP
      let d1 := sqDistV (segAt (vertexOf s pe) (vertexOf s ce) t1) startP
      let t2 := segParam (vertexOf s ce) (vertexOf s (nextOf s ce)) startP
      let d2 := sqDistV (segAt (vertexOf s ce) (vertexOf s (nextOf s ce)) t2) startP
      if d1 ≤ d2 then some (pe, t1) else some (ce, t2)
  | some _, some _ => none

/-- `clampMovement`.  The result carries the (unmodified) mesh state, the
new current region and the output clamp position.  The slide arithmetic of
the source — normalize the edge direction, project the normalized movement
direction onto it and slide by that fraction of the movement length —
composes exactly to the rational form `closestPoint + d * ((d ⬝ Δ) / (d ⬝ d))`
with `d` the raw edge vector and `Δ` the movement vector, which is what is
written here (the source's intermediate square roots cancel). -/
def clampMovement (s : MeshState) (cnt : List Vec3 → Vec3 → Bool)
    (currentRegion : Option Nat) (startP endP clampP : Vec3) :
    Except String (MeshState × Option Nat × Vec3) :=
  match getRegionForPoint s cnt endP with
  | some nextRegion => .ok (s, some nextRegion, clampP)
  | none =>
      match currentRegion with
      | none => .error "YUKA.NavMesh.clampMovement(): No current region available."
      | some cur =>
          match closestEdgeScan s startP (cycleIds s (polyEdgeOf s cur)) with
          | none => .error "closest edge scan over an empty boundary"
          | some ce =>
              match segSelect s startP ce with
              | none => .error "sliding segment undefined: both adjoining edges carry twins"
              | some (e, t) =>
                  let a := vertexOf s e
                  let b := vertexOf s (nextOf s e)
                  let d := vsub b a
                  let delta := vsub endP startP
                  let cp := segAt a b t
                  let newPos := vadd cp (smul d (dot d delta / dot d d))
                  let t2 := segParam a b newPos
                  let out :=
                    if 0 ≤ t2 ∧ t2 ≤ 1 then newPos
                    else if (getRegionForPoint s cnt newPos).isSome then newPos
                    else startP
                  .ok (s, some cur, out)

/-! ## Concrete instances of the external geometric contracts

The polygon's own convexity and containment tests live outside this
repository's source; the following instances, used by witnesses and
counterexamples, are modelled from the spec for coplanar polygons in the
x-z plane. -/

/-- The 2D turn of three consecutive boundary points in the x-z plane. -/
def cross2 (a b c : Vec3) : ℚ :=
  (b.x - a.x) * (c.z - b.z) - (b.z - a.z) * (c.x - b.x)

/-- Modelled from the spec: `Polygon.convex()`, the polygon's own geometric
test — it "must hold for every edge triple in the candidate cycle"; for a
planar boundary that is: every consecutive turn has the same sign (either
orientation). -/
def convexXZ (vs : List Vec3) : Bool :=
  let n := vs.length
  let cr := fun i => cross2 (vs.getD i default) (vs.getD ((i + 1) % n) default)
      (vs.getD ((i + 2) % n) default)
  decide ((∀ i ∈ List.range n, 0 ≤ cr i) ∨ (∀ i ∈ List.range n, cr i ≤ 0))

/-- Modelled from the spec: `Polygon.contains(point, epsilon)` with the
default tolerance 1e-3 — containment in a counter-clockwise convex boundary
up to the tolerance. -/
def containsXZ (vs : List Vec3) (p : Vec3) : Bool :=
  let n := vs.length
  decide (∀ i ∈ List.range n,
    -(1 / 1000 : ℚ) ≤ cross2 (vs.getD i default) (vs.getD ((i + 1) % n) default) p)

/-- A concrete stand-in for the external Euclidean `Vector3.distanceTo` used
when a witness must instantiate the distance parameter. -/
def sqDist (a b : Vec3) : ℚ := sqDistV a b

/-- A planar point in the x-z plane. -/
def pt (x z : ℚ) : Vec3 := ⟨x, 0, z⟩

/-- A fresh input half-edge of a polygon cycle. -/
def mkEdge (v : Vec3) (nx pv pg : Nat) : HalfEdge := ⟨v, nx, pv, none, pg, -1⟩

/-! ## Field-preservation lemmas for the state writers -/

theorem set_oob {α : Type} : ∀ (l : List α) (i : Nat) (a : α), l.length ≤ i → l.set i a = l := by
  intro l
  induction l with
  | nil => intro i a _; rfl
  | cons x xs ih =>
      intro i a h
      cases i with
      | zero => exact absurd h (by simp)
      | succ n =>
          simp only [List.set]
          rw [ih n a (by simpa using h)]

theorem seta_oob {α : Type} [Inhabited α] (l : List α) (i : Nat) (f : α → α)
    (h : l.length ≤ i) : seta l i f = l := set_oob l i _ h

theorem length_edges_setNext (s : MeshState) (i v : Nat) :
    (setNext s i v).edges.length = s.edges.length :=
  length_seta s.edges i (fun e => { e with next := v })

theorem length_edges_setPrev (s : MeshState) (i v : Nat) :
    (setPrev s i v).edges.length = s.edges.length :=
  length_seta s.edges i (fun e => { e with prev := v })

/-- Generic projection transport through a single arena write: any field the
rewrite leaves untouched reads back unchanged at every handle. -/
theorem geta_seta_keep {α β : Type} [Inhabited α] (l : List α) (i : Nat) (f : α → α)
    (proj : α → β) (hf : ∀ e, proj (f e) = proj e) (j : Nat) :
    proj (geta (seta l i f) j) = proj (geta l j) := by
  by_cases hi : i < l.length
  · by_cases hij : i = j
    · subst hij
      rw [geta_seta_eq _ _ _ hi, hf]
    · rw [geta_seta_ne _ _ _ _ hij]
  · rw [seta_oob _ _ _ (Nat.le_of_not_lt hi)]

theorem prevOf_setNext (s : MeshState) (i v j : Nat) :
    prevOf (setNext s i v) j = prevOf s j :=
  geta_seta_keep s.edges i (fun e => { e with next := v }) (fun e => e.prev) (fun _ => rfl) j

theorem nextOf_setPrev (s : MeshState) (i v j : Nat) :
    nextOf (setPrev s i v) j = nextOf s j :=
  geta_seta_keep s.edges i (fun e => { e with prev := v }) (fun e => e.next) (fun _ => rfl) j

theorem vertexOf_setNext (s : MeshState) (i v j : Nat) :
    vertexOf (setNext s i v) j = vertexOf s j :=
  geta_seta_keep s.edges i (fun e => { e with next := v }) (fun e => e.vertex) (fun _ => rfl) j

theorem vertexOf_setPrev (s : MeshState) (i v j : Nat) :
    vertexOf (setPrev s i v) j = vertexOf s j :=
  geta_seta_keep s.edges i (fun e => { e with prev := v }) (fun e => e.vertex) (fun _ => rfl) j

theorem twinOf_setNext (s : MeshState) (i v j : Nat) :
    twinOf (setNext s i v) j = twinOf s j :=
  geta_seta_keep s.edges i (fun e => { e with next := v }) (fun e => e.twin) (fun _ => rfl) j

theorem twinOf_setPrev (s : MeshState) (i v j : Nat) :
    twinOf (setPrev s i v) j = twinOf s j :=
  geta_seta_keep s.edges i (fun e => { e with prev := v }) (fun e => e.twin) (fun _ => rfl) j

theorem polyOf_setNext (s : MeshState) (i v j : Nat) :
    polyOf (setNext s i v) j = polyOf s j :=
  geta_seta_keep s.edges i (fun e => { e with next := v }) (fun e => e.polygon) (fun _ => rfl) j

theorem polyOf_setPrev (s : MeshState) (i v j : Nat) :
    polyOf (setPrev s i v) j = polyOf s j :=
  geta_seta_keep s.edges i (fun e => { e with prev := v }) (fun e => e.polygon) (fun _ => rfl) j

theorem nextOf_setNext_ne (s : MeshState) (i v j : Nat) (h : i ≠ j) :
    nextOf (setNext s i v) j = nextOf s j := by
  simp [nextOf, setNext, edgeAt, geta_seta_ne _ _ _ _ h]

theorem nextOf_setNext_eq (s : MeshState) (i v : Nat) (h : i < s.edges.length) :
    nextOf (setNext s i v) i = v := by
  simp [nextOf, setNext, edgeAt, geta_seta_eq _ _ _ h]

theorem prevOf_setPrev_ne (s : MeshState) (i v j : Nat) (h : i ≠ j) :
    prevOf (setPrev s i v) j = prevOf s j := by
  simp [prevOf, setPrev, edgeAt, geta_seta_ne _ _ _ _ h]

theorem prevOf_setPrev_eq (s : MeshState) (i v : Nat) (h : i < s.edges.length) :
    prevOf (setPrev s i v) i = v := by
  simp [prevOf, setPrev, edgeAt, geta_seta_eq _ _ _ h]

theorem polys_setNext (s : MeshState) (i v : Nat) : (setNext s i v).polys = s.polys := rfl

theorem polys_setPrev (s : MeshState) (i v : Nat) : (setPrev s i v).polys = s.polys := rfl

theorem regions_setNext (s : MeshState) (i v : Nat) :
    (setNext s i v).regions = s.regions := rfl

theorem regions_setPrev (s : MeshState) (i v : Nat) :
    (setPrev s i v).regions = s.regions := rfl

theorem edges_setPolyEdge (s : MeshState) (p v : Nat) :
    (setPolyEdge s p v).edges = s.edges := rfl

theorem polyOf_setPolyEdge (s : MeshState) (p v j : Nat) :
    polyOf (setPolyEdge s p v) j = polyOf s j := rfl

theorem regions_setPolyEdge (s : MeshState) (p v : Nat) :
    (setPolyEdge s p v).regions = s.regions := rfl

/-- The cycle walk depends only on the `next` map. -/
theorem cycleFrom_congr (n1 n2 : Nat → Nat) (start : Nat) (h : ∀ i, n1 i = n2 i) :
    ∀ fuel cur, cycleFrom n1 start cur fuel = cycleFrom n2 start cur fuel := by
  intro fuel
  induction fuel with
  | zero => intro cur; rfl
  | succ n ih =>
      intro cur
      simp only [cycleFrom, h cur, ih]

/-- Two states with identical arena size, `next` maps and vertex maps have
identical boundary cycles. -/
theorem cycleVerts_congr (s1 s2 : MeshState)
    (hl : s1.edges.length = s2.edges.length)
    (hn : ∀ i, nextOf s1 i = nextOf s2 i)
    (hv : ∀ i, vertexOf s1 i = vertexOf s2 i) (start : Nat) :
    cycleVerts s1 start = cycleVerts s2 start := by
  unfold cycleVerts cycleIds
  rw [hl, cycleFrom_congr _ _ _ hn]
  exact List.map_congr_left (fun i _ => hv i)

/-- The commit pass of a region merge only rewrites `polygon` fields. -/
theorem foldPoly_static (cyc : List Nat) (p : Nat) :
    ∀ es : List HalfEdge,
      (cyc.foldl (fun es i => seta es i (fun e => { e with polygon := p })) es).length =
          es.length ∧
        (∀ j, (geta (cyc.foldl (fun es i => seta es i (fun e => { e with polygon := p })) es) j).vertex =
          (geta es j).vertex) ∧
        (∀ j, (geta (cyc.foldl (fun es i => seta es i (fun e => { e with polygon := p })) es) j).next =
          (geta es j).next) ∧
        (∀ j, (geta (cyc.foldl (fun es i => seta es i (fun e => { e with polygon := p })) es) j).twin =
          (geta es j).twin) ∧
        (∀ j, (geta (cyc.foldl (fun es i => seta es i (fun e => { e with polygon := p })) es) j).nodeIndex =
          (geta es j).nodeIndex) := by
  induction cyc with
  | nil => intro es; exact ⟨rfl, fun _ => rfl, fun _ => rfl, fun _ => rfl, fun _ => rfl⟩
  | cons i rest ih =>
      intro es
      obtain ⟨l1, v1, n1, t1, d1⟩ := ih (seta es i (fun e => { e with polygon := p }))
      refine ⟨by rw [List.foldl_cons, l1, length_seta], ?_, ?_, ?_, ?_⟩
      · intro j
        rw [List.foldl_cons, v1 j]
        exact geta_seta_keep es i (fun e => { e with polygon := p }) (fun e => e.vertex) (fun _ => rfl) j
      · intro j
        rw [List.foldl_cons, n1 j]
        exact geta_seta_keep es i (fun e => { e with polygon := p }) (fun e => e.next) (fun _ => rfl) j
      · intro j
        rw [List.foldl_cons, t1 j]
        exact geta_seta_keep es i (fun e => { e with polygon := p }) (fun e => e.twin) (fun _ => rfl) j
      · intro j
        rw [List.foldl_cons, d1 j]
        exact geta_seta_keep es i (fun e => { e with polygon := p }) (fun e => e.nodeIndex) (fun _ => rfl) j

/-! ## Twin symmetry (C8) -/

/-- A quantity no fold step changes is unchanged by the whole fold. -/
theorem foldl_keep {σ β γ : Type} (g : σ → γ) (f : σ → β → σ)
    (h : ∀ s b, g (f s b) = g s) : ∀ (l : List β) (s : σ), g (l.foldl f s) = g s := by
  intro l
  induction l with
  | nil => intro s; rfl
  | cons b bs ih => intro s; rw [List.foldl_cons, ih, h]

theorem twinOf_setTwin_ne (s : MeshState) (i : Nat) (v : Option Nat) (j : Nat)
    (h : i ≠ j) : twinOf (setTwin s i v) j = twinOf s j := by
  simp [twinOf, setTwin, edgeAt, geta_seta_ne _ _ _ _ h]

theorem twinOf_setTwin_eq (s : MeshState) (i : Nat) (v : Option Nat)
    (h : i < s.edges.length) : twinOf (setTwin s i v) i = v := by
  simp [twinOf, setTwin, edgeAt, geta_seta_eq _ _ _ h]

theorem vertexOf_setTwin (s : MeshState) (i : Nat) (v : Option Nat) (j : Nat) :
    vertexOf (setTwin s i v) j = vertexOf s j :=
  geta_seta_keep s.edges i (fun e => { e with twin := v }) (fun e => e.vertex) (fun _ => rfl) j

theorem nextOf_setTwin (s : MeshState) (i : Nat) (v : Option Nat) (j : Nat) :
    nextOf (setTwin s i v) j = nextOf s j :=
  geta_seta_keep s.edges i (fun e => { e with twin := v }) (fun e => e.next) (fun _ => rfl) j

theorem length_edges_setTwin (s : MeshState) (i : Nat) (v : Option Nat) :
    (setTwin s i v).edges.length = s.edges.length :=
  length_seta s.edges i (fun e => { e with twin := v })

theorem twinOf_setPolyEdge (s : MeshState) (p v j : Nat) :
    twinOf (setPolyEdge s p v) j = twinOf s j := rfl

theorem twinOf_setCentroid (s : MeshState) (p j : Nat) :
    twinOf (setCentroid s p) j = twinOf s j := rfl

theorem twinOf_spliceState (s : MeshState) (c t j : Nat) :
    twinOf (spliceState s c t) j = twinOf s j := by
  unfold spliceState
  dsimp only []
  simp only [twinOf_setPolyEdge, twinOf_setNext, twinOf_setPrev]

/-- A region-merge candidate step rewires `next`/`prev`/`polygon` references
and the region set but never touches a twin reference. -/
theorem twinOf_regionStep (cv : List Vec3 → Bool) (s : MeshState) (entry : SEntry)
    (j : Nat) : twinOf (regionStep cv s entry) j = twinOf s j := by
  unfold regionStep
  dsimp only []
  cases htw : twinOf s entry.edge with
  | none => rfl
  | some t =>
      dsimp only []
      split
      · exact ((foldPoly_static _ _ _).2.2.2.1 j).trans (twinOf_spliceState s entry.edge t j)
      · simp only [twinOf_setPolyEdge, twinOf_setNext, twinOf_setPrev, twinOf_spliceState]

theorem twinOf_buildRegions (cv : List Vec3 → Bool) (s : MeshState)
    (entries : List SEntry) (j : Nat) :
    twinOf (buildRegions cv s entries) j = twinOf s j := by
  unfold buildRegions
  dsimp only []
  rw [foldl_keep (fun st => twinOf st j) setCentroid (fun st p => twinOf_setCentroid st p j),
    foldl_keep (fun st => twinOf st j) (regionStep cv) (fun st e => twinOf_regionStep cv st e j)]

theorem length_setNodeIdx (es : List HalfEdge) (i : Nat) (v : Int) :
    (setNodeIdx es i v).length = es.length := length_seta es i _

theorem geta_setNodeIdx_twin (es : List HalfEdge) (i : Nat) (v : Int) (j : Nat) :
    (geta (setNodeIdx es i v) j).twin = (geta es j).twin :=
  geta_seta_keep es i (fun e => { e with nodeIndex := v }) (fun e => e.twin) (fun _ => rfl) j

theorem geta_setNodeIdx_vertex (es : List HalfEdge) (i : Nat) (v : Int) (j : Nat) :
    (geta (setNodeIdx es i v) j).vertex = (geta es j).vertex :=
  geta_seta_keep es i (fun e => { e with nodeIndex := v }) (fun e => e.vertex) (fun _ => rfl) j

theorem geta_setNodeIdx_next (es : List HalfEdge) (i : Nat) (v : Int) (j : Nat) :
    (geta (setNodeIdx es i v) j).next = (geta es j).next :=
  geta_seta_keep es i (fun e => { e with nodeIndex := v }) (fun e => e.next) (fun _ => rfl) j

theorem geta_setNodeIdx_eq (es : List HalfEdge) (i : Nat) (v : Int)
    (h : i < es.length) : (geta (setNodeIdx es i v) i).nodeIndex = v := by
  simp [setNodeIdx, geta_seta_eq _ _ _ h]

theorem geta_setNodeIdx_ne (es : List HalfEdge) (i : Nat) (v : Int) (j : Nat)
    (h : i ≠ j) : geta (setNodeIdx es i v) j = geta es j :=
  geta_seta_ne es i j _ h

/-- The node-index walk writes only `nodeIndex` fields. -/
theorem niStep_twin (st : NIState) (i j : Nat) :
    (geta (niStep st i).edges j).twin = (geta st.edges j).twin := by
  unfold niStep
  cases h : (geta st.edges i).twin with
  | none => rfl
  | some t =>
      dsimp only []
      cases hl : lookupIdx st.imap (geta st.edges i).vertex <;>
        simp only [geta_setNodeIdx_twin]

theorem twinOf_buildNodeIndices (s : MeshState) (j : Nat) :
    twinOf (buildNodeIndices s) j = twinOf s j := by
  show (geta (buildNodeIndicesRun s).edges j).twin = twinOf s j
  unfold buildNodeIndicesRun
  rw [foldl_keep (fun (st : NIState) => (geta st.edges j).twin) niStep
    (fun st i => niStep_twin st i j)]
  rfl

/-- The discovery invariant over the scan list `l`: only twin fields have
been rewritten, and the twin references form a symmetric relation of
geometrically matched scan-list edges. -/
def DiscState (s0 s : MeshState) (l : List Nat) : Prop :=
  s.edges.length = s0.edges.length ∧
    (∀ j, vertexOf s j = vertexOf s0 j) ∧
    (∀ j, nextOf s j = nextOf s0 j) ∧
    ∀ a b, twinOf s a = some b →
      twinOf s b = some a ∧ fromOf s0 a = toOf s0 b ∧ toOf s0 a = fromOf s0 b ∧
        a ∈ l ∧ b ∈ l

theorem edgeMatches_congr (s0 s : MeshState)
    (hv : ∀ j, vertexOf s j = vertexOf s0 j) (hn : ∀ j, nextOf s j = nextOf s0 j)
    (a b : Nat) : edgeMatches s a b = edgeMatches s0 a b := by
  simp only [edgeMatches, fromOf, toOf, hv, hn]

/-- One turn of the discovery scan preserves the invariant, provided the
scan list holds no duplicate directed edge (the non-manifold case the spec
declares undefined). -/
theorem twinStep_inv (s0 : MeshState) (l : List Nat)
    (hnd : ∀ a ∈ l, ∀ b ∈ l, a ≠ b → ¬(fromOf s0 a = fromOf s0 b ∧ toOf s0 a = toOf s0 b))
    (hrange : ∀ a ∈ l, a < s0.edges.length)
    (e0 : Nat) (he0l : e0 ∈ l) (acc : MeshState × List SEntry)
    (hI : DiscState s0 acc.1 l) : DiscState s0 (twinStep l acc e0).1 l := by
  obtain ⟨s, es⟩ := acc
  obtain ⟨hlen, hv, hn, hsym⟩ := hI
  unfold twinStep
  dsimp only []
  split
  · exact ⟨hlen, hv, hn, hsym⟩
  · next hcond =>
      have h0none : twinOf s e0 = none := not_not.mp hcond
      cases hf : List.find? (fun e1 => edgeMatches s e0 e1) l with
      | none => exact ⟨hlen, hv, hn, hsym⟩
      | some e1 =>
          dsimp only []
          have he1l : e1 ∈ l := List.mem_of_find?_eq_some hf
          have hm0 : edgeMatches s0 e0 e1 = true := by
            rw [← edgeMatches_congr s0 s hv hn]
            exact List.find?_some hf
          have hmm : fromOf s0 e0 = toOf s0 e1 ∧ toOf s0 e0 = fromOf s0 e1 :=
            of_decide_eq_true hm0
          have he0len : e0 < s.edges.length := by rw [hlen]; exact hrange e0 he0l
          have he1len : e1 < s.edges.length := by rw [hlen]; exact hrange e1 he1l
          have he1none : twinOf s e1 = none := by
            cases ht1 : twinOf s e1 with
            | none => rfl
            | some p =>
                obtain ⟨hp1, hpm1, hpm2, _, hpl⟩ := hsym e1 p ht1
                have hpe0 : p ≠ e0 := by
                  intro he
                  rw [he] at hp1
                  rw [h0none] at hp1
                  exact Option.noConfusion hp1
                exact absurd ⟨hpm2.symm.trans hmm.1.symm, hpm1.symm.trans hmm.2.symm⟩
                  (hnd p hpl e0 he0l hpe0)
          set s2 := setTwin (setTwin s e0 (some e1)) e1 (some e0) with hs2
          have hlen1 : (setTwin s e0 (some e1)).edges.length = s.edges.length :=
            length_edges_setTwin s e0 (some e1)
          have hlen2 : s2.edges.length = s.edges.length := by
            rw [hs2, length_edges_setTwin, hlen1]
          have htw : ∀ j, twinOf s2 j =
              if j = e1 then some e0 else if j = e0 then some e1 else twinOf s j := by
            intro j
            rcases eq_or_ne j e1 with rfl | hj1
            · rw [if_pos rfl, hs2, twinOf_setTwin_eq _ _ _ (by rw [hlen1]; exact he1len)]
            · rw [if_neg hj1, hs2, twinOf_setTwin_ne _ _ _ _ (Ne.symm hj1)]
              rcases eq_or_ne j e0 with rfl | hj0
              · rw [if_pos rfl, twinOf_setTwin_eq _ _ _ he0len]
              · rw [if_neg hj0, twinOf_setTwin_ne _ _ _ _ (Ne.symm hj0)]
          refine ⟨by rw [hlen2, hlen], ?_, ?_, ?_⟩
          · intro j
            rw [hs2, vertexOf_setTwin, vertexOf_setTwin]
            exact hv j
          · intro j
            rw [hs2, nextOf_setTwin, nextOf_setTwin]
            exact hn j
          · intro a b hab
            rw [htw a] at hab
            by_cases ha1 : a = e1
            · subst ha1
              rw [if_pos rfl] at hab
              cases hab
              refine ⟨?_, hmm.2.symm, hmm.1.symm, he1l, he0l⟩
              rw [htw e0]
              rcases eq_or_ne e0 a with heq | hne
              · rw [if_pos heq, heq]
              · rw [if_neg hne, if_pos rfl]
            · rw [if_neg ha1] at hab
              by_cases ha0 : a = e0
              · subst ha0
                rw [if_pos rfl] at hab
                cases hab
                refine ⟨?_, hmm.1, hmm.2, he0l, he1l⟩
                rw [htw e1, if_pos rfl]
              · rw [if_neg ha0] at hab
                obtain ⟨hba, hm1, hm2, hal, hbl⟩ := hsym a b hab
                have hb0 : b ≠ e0 := by
                  intro he
                  rw [he, h0none] at hba
                  exact Option.noConfusion hba
                have hb1 : b ≠ e1 := by
                  intro he
                  rw [he, he1none] at hba
                  exact Option.noConfusion hba
                refine ⟨?_, hm1, hm2, hal, hbl⟩
                rw [htw b, if_neg hb1, if_neg hb0]
                exact hba

theorem twinFold_inv (s0 : MeshState) (l : List Nat)
    (hnd : ∀ a ∈ l, ∀ b ∈ l, a ≠ b → ¬(fromOf s0 a = fromOf s0 b ∧ toOf s0 a = toOf s0 b))
    (hrange : ∀ a ∈ l, a < s0.edges.length) :
    ∀ (l2 : List Nat), (∀ x ∈ l2, x ∈ l) → ∀ acc : MeshState × List SEntry,
      DiscState s0 acc.1 l → DiscState s0 (l2.foldl (twinStep l) acc).1 l := by
  intro l2
  induction l2 with
  | nil => intro _ acc h; exact h
  | cons x xs ih =>
      intro hsub acc h
      rw [List.foldl_cons]
      exact ih (fun y hy => hsub y (List.mem_cons_of_mem x hy)) _
        (twinStep_inv s0 l hnd hrange x (hsub x (List.mem_cons_self x xs)) acc h)

/-- C8: after `fromPolygons` on a well-formed input (twin references unset,
no duplicate directed edge among the scanned boundary edges — the
non-manifold case is undefined behavior per the spec), twin linking is
symmetric: whenever `e.twin` is set, `e.twin.twin = e`.  The region-merge
and node-index phases rewire only `next`/`prev`/`polygon`/`nodeIndex`
references, so the symmetry established by discovery survives the build. -/
theorem fromPolygons_twin_symmetry (cv : List Vec3 → Bool) (dist : Vec3 → Vec3 → ℚ)
    (s : MeshState)
    (h0 : ∀ j, j < s.edges.length → twinOf s j = none)
    (hrange : ∀ a ∈ initialEdgeList s, a < s.edges.length)
    (hnd : ∀ a ∈ initialEdgeList s, ∀ b ∈ initialEdgeList s, a ≠ b →
      ¬(fromOf s a = fromOf s b ∧ toOf s a = toOf s b)) :
    ∀ a b, twinOf (fromPolygons cv dist s).1 a = some b →
      twinOf (fromPolygons cv dist s).1 b = some a := by
  have hred : ∀ j, twinOf (fromPolygons cv dist s).1 j =
      twinOf (twinDiscovery { s with regions := List.range s.polys.length }
        (initialEdgeList { s with regions := List.range s.polys.length })).1 j := by
    intro j
    show twinOf (buildNodeIndices (buildRegions cv _ _)) j = _
    rw [twinOf_buildNodeIndices, twinOf_buildRegions]
  have hbase : DiscState s { s with regions := List.range s.polys.length }
      (initialEdgeList s) := by
    refine ⟨rfl, fun _ => rfl, fun _ => rfl, ?_⟩
    intro a b hab
    exfalso
    by_cases hal : a < s.edges.length
    · rw [show twinOf { s with regions := List.range s.polys.length } a = twinOf s a from rfl,
        h0 a hal] at hab
      exact Option.noConfusion hab
    · have : twinOf { s with regions := List.range s.polys.length } a = none := by
        show (geta s.edges a).twin = none
        rw [geta_oob s.edges a (Nat.le_of_not_lt hal)]
        rfl
      rw [this] at hab
      exact Option.noConfusion hab
  have hfin := twinFold_inv s (initialEdgeList s) hnd hrange (initialEdgeList s)
    (fun x hx => hx) ({ s with regions := List.range s.polys.length }, []) hbase
  intro a b hab
  rw [hred] at hab ⊢
  exact (hfin.2.2.2 a b hab).1

/-! ## Easy query claims -/

/-- C10: `findPath` on a NavMesh with an empty region set returns exactly
the two input points: both region resolutions and the closest-region
fallback yield none, the two none results compare equal, and the
same-region shortcut fires — no empty result, no error. -/
theorem findPath_empty_mesh (s : MeshState) (g : Graph)
    (cnt : List Vec3 → Vec3 → Bool)
    (search : Graph → Option Int → Option Int → Option (List Int))
    (a b : Vec3) (h : s.regions = []) :
    findPath s g cnt search a b = [a, b] := by
  simp [findPath, resolveRegion, getRegionForPoint, getClosestRegion, h]

theorem findPath_empty_mesh_wit :
    (MeshState.mk [] [] []).regions = [] ∧
      findPath ⟨[], [], []⟩ Graph.empty (fun _ _ => true) (fun _ _ _ => none)
        (pt 0 0) (pt 3 4) = [pt 0 0, pt 3 4] :=
  ⟨rfl, findPath_empty_mesh ⟨[], [], []⟩ Graph.empty (fun _ _ => true)
    (fun _ _ _ => none) (pt 0 0) (pt 3 4) rfl⟩

/-- C5: whenever the two query points resolve (through `getRegionForPoint`
with the `getClosestRegion` fallback) to the same region, `findPath` returns
exactly the two-element sequence of copies of the inputs, for every search
function — no graph search is performed. -/
theorem findPath_same_region (s : MeshState) (g : Graph)
    (cnt : List Vec3 → Vec3 → Bool)
    (search : Graph → Option Int → Option Int → Option (List Int))
    (a b : Vec3) (h : resolveRegion s cnt a = resolveRegion s cnt b) :
    findPath s g cnt search a b = [a, b] := by
  simp [findPath, h]

/-- A one-triangle mesh used by query witnesses. -/
def meshTri : MeshState :=
  ⟨[mkEdge (pt 0 0) 1 2 0, mkEdge (pt 1 0) 2 0 0, mkEdge (pt 0 1) 0 1 0],
   [⟨0, default⟩], [0]⟩

theorem findPath_same_region_wit :
    resolveRegion meshTri (fun _ _ => true) (pt 0 0) =
        resolveRegion meshTri (fun _ _ => true) (pt 1 1) ∧
      findPath meshTri Graph.empty (fun _ _ => true) (fun _ _ _ => some [])
        (pt 0 0) (pt 1 1) = [pt 0 0, pt 1 1] :=
  ⟨by decide, findPath_same_region meshTri Graph.empty (fun _ _ => true)
    (fun _ _ _ => some []) (pt 0 0) (pt 1 1) (by decide)⟩

/-- C6: when the two query points resolve to distinct regions and the graph
search between the chosen source and target node indices fails, `findPath`
returns the empty sequence (and, being a total function of its inputs,
raises no error). -/
theorem findPath_no_route_empty (s : MeshState) (g : Graph)
    (cnt : List Vec3 → Vec3 → Bool)
    (search : Graph → Option Int → Option Int → Option (List Int))
    (a b : Vec3) (hne : resolveRegion s cnt a ≠ resolveRegion s cnt b)
    (hs : search g (chosenSource s cnt a b) (chosenTarget s cnt a b) = none) :
    findPath s g cnt search a b = [] := by
  unfold findPath
  rw [if_neg hne]
  cases hfr : resolveRegion s cnt a with
  | none => cases htr : resolveRegion s cnt b <;> simp
  | some fr =>
      cases htr : resolveRegion s cnt b with
      | none => simp
      | some tr => simp only [hs]

/-- Two disjoint unit squares (the second translated by x+10). -/
def meshTwoSq : MeshState :=
  ⟨[mkEdge (pt 0 0) 1 3 0, mkEdge (pt 1 0) 2 0 0,
    mkEdge (pt 1 1) 3 1 0, mkEdge (pt 0 1) 0 2 0,
    mkEdge (pt 10 0) 5 7 1, mkEdge (pt 11 0) 6 4 1,
    mkEdge (pt 11 1) 7 5 1, mkEdge (pt 10 1) 4 6 1],
   [⟨0, default⟩, ⟨4, default⟩], [0, 1]⟩

theorem findPath_no_route_empty_wit :
    resolveRegion meshTwoSq containsXZ (pt (1/2) (1/2)) ≠
        resolveRegion meshTwoSq containsXZ (pt (21/2) (1/2)) ∧
      findPath meshTwoSq Graph.empty containsXZ (fun _ _ _ => none)
        (pt (1/2) (1/2)) (pt (21/2) (1/2)) = [] :=
  ⟨by with_unfolding_all decide, findPath_no_route_empty meshTwoSq Graph.empty containsXZ
    (fun _ _ _ => none) (pt (1/2) (1/2)) (pt (21/2) (1/2)) (by with_unfolding_all decide) rfl⟩

/-- C7: when the proposed end position already lies inside some region,
`clampMovement` returns exactly that region, leaves the clamp position
completely untouched and leaves the NavMesh state unmodified. -/
theorem clampMovement_inside_region (s : MeshState)
    (cnt : List Vec3 → Vec3 → Bool) (currentRegion : Option Nat)
    (startP endP clampP : Vec3) (r : Nat)
    (h : getRegionForPoint s cnt endP = some r) :
    clampMovement s cnt currentRegion startP endP clampP =
      .ok (s, some r, clampP) := by
  unfold clampMovement
  rw [h]

theorem clampMovement_inside_region_wit :
    getRegionForPoint meshTri (fun _ _ => true) (pt 5 5) = some 0 ∧
      clampMovement meshTri (fun _ _ => true) none (pt 0 0) (pt 5 5) (pt 9 9) =
        .ok (meshTri, some 0, pt 9 9) :=
  ⟨by decide, clampMovement_inside_region meshTri (fun _ _ => true) none
    (pt 0 0) (pt 5 5) (pt 9 9) 0 (by decide)⟩

/-! ## Region building: convexity at commit (C1) and rollback (C2) -/

/-- A committed merge leaves the polygon arena untouched and rewrites only
`polygon` fields (and the region set): arena size, `next` and vertex maps
survive the commit pass. -/
theorem regionStep_commit (cv : List Vec3 → Bool) (s : MeshState) (entry : SEntry)
    (t : Nat) (ht : twinOf s entry.edge = some t)
    (hcv : cv (cycleVerts (spliceState s entry.edge t)
      (polyEdgeOf (spliceState s entry.edge t)
        (polyOf (spliceState s entry.edge t) entry.edge))) = true) :
    (regionStep cv s entry).polys = (spliceState s entry.edge t).polys ∧
      (regionStep cv s entry).edges.length = (spliceState s entry.edge t).edges.length ∧
      (∀ j, nextOf (regionStep cv s entry) j = nextOf (spliceState s entry.edge t) j) ∧
      (∀ j, vertexOf (regionStep cv s entry) j = vertexOf (spliceState s entry.edge t) j) := by
  unfold regionStep
  dsimp only []
  rw [ht]
  dsimp only []
  simp only [hcv, if_true]
  refine ⟨by trivial, ?_, ?_, ?_⟩
  · exact (foldPoly_static _ _ _).1
  · exact fun j => (foldPoly_static _ _ _).2.2.1 j
  · exact fun j => (foldPoly_static _ _ _).2.1 j

/-- C1 (amended): when a merge candidate commits — that is, the spliced
cycle passes the convexity test — the surviving region still passes the
convexity test in the state the candidate step returns.  (The build never
re-checks regions that were not merged, so the original claim fails for
non-convex input polygons that are never merged; see the counterexample.) -/
theorem regionStep_commit_convex (cv : List Vec3 → Bool) (s : MeshState) (entry : SEntry)
    (t : Nat) (ht : twinOf s entry.edge = some t)
    (hcv : cv (cycleVerts (spliceState s entry.edge t)
      (polyEdgeOf (spliceState s entry.edge t)
        (polyOf (spliceState s entry.edge t) entry.edge))) = true) :
    cv (cycleVerts (regionStep cv s entry)
      (polyEdgeOf (regionStep cv s entry)
        (polyOf (spliceState s entry.edge t) entry.edge))) = true := by
  obtain ⟨hp, hl, hn, hv⟩ := regionStep_commit cv s entry t ht hcv
  have hpe : polyEdgeOf (regionStep cv s entry)
      (polyOf (spliceState s entry.edge t) entry.edge) =
      polyEdgeOf (spliceState s entry.edge t)
        (polyOf (spliceState s entry.edge t) entry.edge) := by
    unfold polyEdgeOf polyAt
    rw [hp]
  rw [hpe, cycleVerts_congr (regionStep cv s entry) (spliceState s entry.edge t) hl hn hv]
  exact hcv

theorem geta_ext {α : Type} [Inhabited α] (l1 l2 : List α) (hl : l1.length = l2.length)
    (h : ∀ j, geta l1 j = geta l2 j) : l1 = l2 := by
  apply List.ext_getElem hl
  intro i h1 h2
  have hi := h i
  rwa [geta, geta, List.getD_eq_getElem?_getD, List.getD_eq_getElem?_getD,
    List.getElem?_eq_getElem h1, List.getElem?_eq_getElem h2] at hi

theorem next_update_self (e : HalfEdge) (v : Nat) (h : e.next = v) :
    { e with next := v } = e := by
  cases e
  cases h
  rfl

theorem prev_update_self (e : HalfEdge) (v : Nat) (h : e.prev = v) :
    { e with prev := v } = e := by
  cases e
  cases h
  rfl

/-- C2 helper: the splice, written with its reads resolved.  Under the
disequalities of a well-formed pair of boundary cycles, every reference read
while relinking still holds its pre-splice value, so the splice is exactly
four writes at `candidate.prev`, `candidate.next`, `twin.prev`, `twin.next`
followed by the polygon's edge repointing. -/
theorem spliceState_resolved (s : MeshState) (c t A B C D : Nat)
    (hA : prevOf s c = A) (hB : nextOf s c = B) (hC : prevOf s t = C) (hD : nextOf s t = D)
    (hAc : A ≠ c) (hAt : A ≠ t) (hBc : B ≠ c) (hBt : B ≠ t) (hCt : C ≠ t) (hDc : D ≠ c) :
    spliceState s c t =
      setPolyEdge (setPrev (setNext (setPrev (setNext s A D) B C) C B) D A)
        (polyOf s c) A := by
  unfold spliceState
  dsimp only []
  simp only [prevOf_setNext, nextOf_setPrev, polyOf_setNext, polyOf_setPrev,
    nextOf_setNext_ne _ _ _ _ hAc, nextOf_setNext_ne _ _ _ _ hAt,
    nextOf_setNext_ne _ _ _ _ hCt, prevOf_setPrev_ne _ _ _ _ hBt,
    prevOf_setPrev_ne _ _ _ _ hBc, prevOf_setPrev_ne _ _ _ _ hDc,
    hA, hB, hC, hD]

/-- C2 (amended): when a merge candidate's spliced cycle fails the convexity
test, the rollback restores the edge arena exactly — the four relinked
edges' `next`/`prev` return to their pre-splice values — and the region set
is untouched; the surviving polygon's entry edge, however, is set to the
candidate edge, not to its pre-splice value.  `c` is the candidate,
`t` its twin, `A`/`B` the candidate's previous/next edge, `C`/`D` the
twin's previous/next edge, `P` the surviving polygon; the disequalities and
`h1`–`h4` are the well-formedness of two disjoint boundary cycles, which
the source assumes (malformed meshes are undefined behavior). -/
theorem regionStep_rollback_exact (cv : List Vec3 → Bool) (s : MeshState) (entry : SEntry)
    (c t A B C D P : Nat)
    (hc : entry.edge = c) (ht : twinOf s c = some t)
    (hA : prevOf s c = A) (hB : nextOf s c = B) (hC : prevOf s t = C) (hD : nextOf s t = D)
    (hP : polyOf s c = P)
    (hAc : A ≠ c) (hAt : A ≠ t) (hBc : B ≠ c) (hBt : B ≠ t) (hCt : C ≠ t) (hDc : D ≠ c)
    (hAB : A ≠ B) (hAC : A ≠ C) (hAD : A ≠ D) (hBC : B ≠ C) (hBD : B ≠ D) (hCD : C ≠ D)
    (hlA : A < s.edges.length) (hlB : B < s.edges.length) (hlC : C < s.edges.length)
    (hlD : D < s.edges.length)
    (h1 : nextOf s A = c) (h2 : prevOf s B = c) (h3 : nextOf s C = t) (h4 : prevOf s D = t)
    (hcv : cv (cycleVerts (spliceState s c t)
      (polyEdgeOf (spliceState s c t) (polyOf (spliceState s c t) c))) = false) :
    (regionStep cv s entry).edges = s.edges ∧
      (regionStep cv s entry).regions = s.regions ∧
      (regionStep cv s entry).polys = seta s.polys P (fun q => { q with edge := c }) := by
  have hres := spliceState_resolved s c t A B C D hA hB hC hD hAc hAt hBc hBt hCt hDc
  unfold regionStep
  dsimp only []
  rw [hc, ht]
  dsimp only []
  rw [hA, hB, hC, hD]
  simp only [hcv, Bool.false_eq_true, if_false]
  rw [hres]
  have hpoly : polyOf (setPolyEdge (setPrev (setNext (setPrev (setNext s A D) B C) C B) D A)
      (polyOf s c) A) c = P := by
    simp only [polyOf_setPolyEdge, polyOf_setPrev, polyOf_setNext, hP]
  rw [hpoly]
  refine ⟨?_, rfl, ?_⟩
  · -- the arena after rollback is the original arena
    dsimp only [setNext, setPrev, setPolyEdge]
    apply geta_ext
    · simp only [length_seta]
    · intro j
      by_cases hjA : j = A
      · subst hjA
        simp only [geta_seta_ne _ _ _ _ (Ne.symm hAD), geta_seta_ne _ _ _ _ (Ne.symm hAC),
          geta_seta_ne _ _ _ _ (Ne.symm hAB), geta_seta_eq, length_seta, hlA]
        exact next_update_self _ _ h1
      · by_cases hjB : j = B
        · subst hjB
          simp only [geta_seta_ne _ _ _ _ (Ne.symm hBD), geta_seta_ne _ _ _ _ (Ne.symm hBC),
            geta_seta_ne _ _ _ _ hAB, geta_seta_eq, length_seta, hlB]
          exact prev_update_self _ _ h2
        · by_cases hjC : j = C
          · subst hjC
            simp only [geta_seta_ne _ _ _ _ (Ne.symm hCD), geta_seta_ne _ _ _ _ hBC,
              geta_seta_ne _ _ _ _ hAC, geta_seta_eq, length_seta, hlC]
            exact next_update_self _ _ h3
          · by_cases hjD : j = D
            · subst hjD
              simp only [geta_seta_ne _ _ _ _ hCD, geta_seta_ne _ _ _ _ hBD,
                geta_seta_ne _ _ _ _ hAD, geta_seta_eq, length_seta, hlD]
              exact prev_update_self _ _ h4
            · simp only [geta_seta_ne _ _ _ _ (Ne.symm hjA), geta_seta_ne _ _ _ _ (Ne.symm hjB),
                geta_seta_ne _ _ _ _ (Ne.symm hjC), geta_seta_ne _ _ _ _ (Ne.symm hjD)]
  · -- the polygon arena holds exactly the entry-edge repointing to the candidate
    dsimp only [setNext, setPrev, setPolyEdge]
    rw [hP]
    apply geta_ext
    · simp only [length_seta]
    · intro j
      rcases eq_or_ne j P with rfl | hjP
      · by_cases hlP : j < s.polys.length
        · simp only [geta_seta_eq, length_seta, hlP]
        · simp only [seta_oob _ _ _ (Nat.le_of_not_lt hlP)]
      · simp only [geta_seta_ne _ _ _ _ (Ne.symm hjP)]

/-- Two unit squares sharing the edge from (1,0) to (1,1), twin references
already linked as discovery leaves them. -/
def meshSq2 : MeshState :=
  ⟨[⟨pt 0 0, 1, 3, none, 0, -1⟩, ⟨pt 1 0, 2, 0, some 4, 0, -1⟩,
    ⟨pt 1 1, 3, 1, none, 0, -1⟩, ⟨pt 0 1, 0, 2, none, 0, -1⟩,
    ⟨pt 1 1, 5, 7, some 1, 1, -1⟩, ⟨pt 1 0, 6, 4, none, 1, -1⟩,
    ⟨pt 2 0, 7, 5, none, 1, -1⟩, ⟨pt 2 1, 4, 6, none, 1, -1⟩],
   [⟨0, default⟩, ⟨4, default⟩], [0, 1]⟩

theorem regionStep_commit_convex_wit :
    twinOf meshSq2 1 = some 4 ∧
      convexXZ (cycleVerts (spliceState meshSq2 1 4)
        (polyEdgeOf (spliceState meshSq2 1 4) (polyOf (spliceState meshSq2 1 4) 1))) = true ∧
      convexXZ (cycleVerts (regionStep convexXZ meshSq2 ⟨1, 1⟩)
        (polyEdgeOf (regionStep convexXZ meshSq2 ⟨1, 1⟩)
          (polyOf (spliceState meshSq2 1 4) 1))) = true :=
  ⟨rfl, by with_unfolding_all decide,
    regionStep_commit_convex convexXZ meshSq2 ⟨1, 1⟩ 4 rfl (by with_unfolding_all decide)⟩

/-- A 2x2 square (edges 0-3, entered at edge 0) and a triangle (edges 4-6)
sharing the square's right edge; their union is non-convex, so the merge is
rolled back.  Twins as discovery links them. -/
def meshSqTri : MeshState :=
  ⟨[⟨pt 0 0, 1, 3, none, 0, -1⟩, ⟨pt 2 0, 2, 0, some 4, 0, -1⟩,
    ⟨pt 2 2, 3, 1, none, 0, -1⟩, ⟨pt 0 2, 0, 2, none, 0, -1⟩,
    ⟨pt 2 2, 5, 6, some 1, 1, -1⟩, ⟨pt 2 0, 6, 4, none, 1, -1⟩,
    ⟨pt 3 3, 4, 5, none, 1, -1⟩],
   [⟨0, default⟩, ⟨4, default⟩], [0, 1]⟩

/-- The same mesh as raw build input: twins unset, regions not yet
registered. -/
def meshSqTriRaw : MeshState :=
  ⟨[mkEdge (pt 0 0) 1 3 0, mkEdge (pt 2 0) 2 0 0,
    mkEdge (pt 2 2) 3 1 0, mkEdge (pt 0 2) 0 2 0,
    mkEdge (pt 2 2) 5 6 1, mkEdge (pt 2 0) 6 4 1,
    mkEdge (pt 3 3) 4 5 1],
   [⟨0, default⟩, ⟨4, default⟩], []⟩

/-- C2 counterexample: a merge candidate whose spliced cycle fails the
convexity test is rolled back, yet the surviving polygon's edge pointer is
not restored: it was edge 0 before the splice and is the candidate edge 1
afterwards — both in the isolated candidate step and after the full build.
The claim that the rollback leaves the edge pointer identical to its
pre-splice value is false on the code. -/
theorem regionRollback_cex :
    convexXZ (cycleVerts (spliceState meshSqTri 1 4)
      (polyEdgeOf (spliceState meshSqTri 1 4) (polyOf (spliceState meshSqTri 1 4) 1))) = false ∧
      polyEdgeOf meshSqTri 0 = 0 ∧
      polyEdgeOf (regionStep convexXZ meshSqTri ⟨4, 1⟩) 0 = 1 ∧
      polyEdgeOf (fromPolygons convexXZ sqDist meshSqTriRaw).1 0 = 1 := by
  with_unfolding_all decide

theorem regionStep_rollback_exact_wit :
    (regionStep convexXZ meshSqTri ⟨4, 1⟩).edges = meshSqTri.edges ∧
      (regionStep convexXZ meshSqTri ⟨4, 1⟩).regions = meshSqTri.regions ∧
      (regionStep convexXZ meshSqTri ⟨4, 1⟩).polys =
        seta meshSqTri.polys 0 (fun q => { q with edge := 1 }) :=
  regionStep_rollback_exact convexXZ meshSqTri ⟨4, 1⟩ 1 4 0 2 6 5 0
    rfl rfl rfl rfl rfl rfl rfl
    (by decide) (by decide) (by decide) (by decide) (by decide) (by decide)
    (by decide) (by decide) (by decide) (by decide) (by decide) (by decide)
    (by decide) (by decide) (by decide) (by decide)
    rfl rfl rfl rfl
    (by with_unfolding_all decide)

/-- A single non-convex L-shaped hexagon: no shared edges, so the build
never merges and never tests it. -/
def meshHexL : MeshState :=
  ⟨[mkEdge (pt 0 0) 1 5 0, mkEdge (pt 2 0) 2 0 0, mkEdge (pt 2 1) 3 1 0,
    mkEdge (pt 1 1) 4 2 0, mkEdge (pt 1 2) 5 3 0, mkEdge (pt 0 2) 0 4 0],
   [⟨0, default⟩], []⟩

/-- C1 counterexample: after a full build over a single non-convex input
polygon, that polygon survives in the region set and fails the convexity
test — the claim that every surviving region passes the test, including
never-merged input polygons, is false on the code. -/
theorem regionConvexity_cex :
    0 ∈ (fromPolygons convexXZ sqDist meshHexL).1.regions ∧
      convexXZ (cycleVerts (fromPolygons convexXZ sqDist meshHexL).1
        (polyEdgeOf (fromPolygons convexXZ sqDist meshHexL).1 0)) = false := by
  with_unfolding_all decide

/-- C9: in the off-mesh branch of `clampMovement` (end position resolves to
no region, current region present), when the boundary edge closest to the
start position and its predecessor BOTH carry twins, none of the three
segment-selection branches assigns the sliding segment and the subsequent
use of it is an unguarded failure; when at least one of the two is a hull
(twin-less) edge the operation completes normally. -/
theorem clampMovement_selection (s : MeshState) (cnt : List Vec3 → Vec3 → Bool)
    (cur ce : Nat) (startP endP clampP : Vec3)
    (hoff : getRegionForPoint s cnt endP = none)
    (hce : closestEdgeScan s startP (cycleIds s (polyEdgeOf s cur)) = some ce) :
    (twinOf s ce ≠ none ∧ twinOf s (prevOf s ce) ≠ none →
        clampMovement s cnt (some cur) startP endP clampP =
          .error "sliding segment undefined: both adjoining edges carry twins") ∧
    (twinOf s ce = none ∨ twinOf s (prevOf s ce) = none →
        ∃ v, clampMovement s cnt (some cur) startP endP clampP = .ok v) := by
  unfold clampMovement
  rw [hoff]
  simp only [hce]
  constructor
  · rintro ⟨h1, h2⟩
    cases ht : twinOf s ce with
    | none => exact absurd ht h1
    | some a =>
        cases ht2 : twinOf s (prevOf s ce) with
        | none => exact absurd ht2 h2
        | some b => simp [segSelect, ht, ht2]
  · intro h
    have hss : ∃ et, segSelect s startP ce = some et := by
      rcases ht : twinOf s ce with _ | a <;> rcases ht2 : twinOf s (prevOf s ce) with _ | b
      · simp only [segSelect, ht, ht2]
        split <;> exact ⟨_, rfl⟩
      · simp only [segSelect, ht, ht2]
        exact ⟨_, rfl⟩
      · simp only [segSelect, ht, ht2]
        exact ⟨_, rfl⟩
      · rcases h with h | h
        · rw [h] at ht
          exact Option.noConfusion ht
        · rw [h] at ht2
          exact Option.noConfusion ht2
    obtain ⟨⟨e, t⟩, hss⟩ := hss
    rw [hss]
    exact ⟨_, rfl⟩

/-- A triangle whose closest edge to the origin and that edge's predecessor
both carry twin references. -/
def meshC9a : MeshState :=
  ⟨[⟨pt 0 0, 1, 2, some 1, 0, -1⟩, ⟨pt 1 0, 2, 0, none, 0, -1⟩,
    ⟨pt 0 1, 0, 1, some 0, 0, -1⟩],
   [⟨0, default⟩], [0]⟩

/-- The same triangle with the closest edge a hull edge. -/
def meshC9b : MeshState :=
  ⟨[⟨pt 0 0, 1, 2, none, 0, -1⟩, ⟨pt 1 0, 2, 0, none, 0, -1⟩,
    ⟨pt 0 1, 0, 1, some 0, 0, -1⟩],
   [⟨0, default⟩], [0]⟩

theorem clampMovement_selection_wit :
    (twinOf meshC9a 0 ≠ none ∧ twinOf meshC9a (prevOf meshC9a 0) ≠ none ∧
      clampMovement meshC9a (fun _ _ => false) (some 0) (pt 0 0) (pt 5 5) (pt 9 9) =
        .error "sliding segment undefined: both adjoining edges carry twins") ∧
    (twinOf meshC9b 0 = none ∧
      ∃ v, clampMovement meshC9b (fun _ _ => false) (some 0) (pt 0 0) (pt 5 5) (pt 9 9) =
        .ok v) :=
  ⟨⟨by decide, by decide,
     (clampMovement_selection meshC9a (fun _ _ => false) 0 0 (pt 0 0) (pt 5 5) (pt 9 9)
        rfl (by with_unfolding_all decide)).1 ⟨by decide, by decide⟩⟩,
   ⟨rfl,
     (clampMovement_selection meshC9b (fun _ _ => false) 0 0 (pt 0 0) (pt 5 5) (pt 9 9)
        rfl (by with_unfolding_all decide)).2 (Or.inl rfl)⟩⟩

/-! ## Intra-region graph connectivity (C3) -/

theorem hasNode_addNode (g : Graph) (n : NavNode) (x : Int) (h : hasNode g x = true) :
    hasNode (addNode g n) x = true := by
  unfold hasNode at h
  unfold hasNode addNode
  rw [List.any_append]
  simp [h]

theorem hasNode_gatherStep (s : MeshState) (acc : Graph × List Int) (i : Nat) (x : Int)
    (h : hasNode acc.1 x = true) : hasNode (graphGatherStep s acc i).1 x = true := by
  obtain ⟨g, l⟩ := acc
  unfold graphGatherStep
  cases twinOf s i with
  | none => exact h
  | some t =>
      dsimp only []
      split
      · exact h
      · exact hasNode_addNode g _ x h

theorem hasNode_gatherStep_self (s : MeshState) (acc : Graph × List Int) (i t : Nat)
    (hti : twinOf s i = some t) :
    hasNode (graphGatherStep s acc i).1 (nodeIdxOf s i) = true := by
  obtain ⟨g, l⟩ := acc
  unfold graphGatherStep
  rw [hti]
  dsimp only []
  split
  · next hh => exact hh
  · unfold hasNode addNode
    rw [List.any_append]
    simp

theorem hasNode_gatherFold (s : MeshState) (cyc : List Nat) :
    ∀ (acc : Graph × List Int),
      (∀ x, hasNode acc.1 x = true → hasNode (cyc.foldl (graphGatherStep s) acc).1 x = true) ∧
      ∀ i ∈ cyc, ∀ t, twinOf s i = some t →
        hasNode (cyc.foldl (graphGatherStep s) acc).1 (nodeIdxOf s i) = true := by
  induction cyc with
  | nil =>
      intro acc
      exact ⟨fun x h => h, fun i hi => absurd hi (List.not_mem_nil i)⟩
  | cons c cs ih =>
      intro acc
      constructor
      · intro x h
        rw [List.foldl_cons]
        exact (ih _).1 x (hasNode_gatherStep s acc c x h)
      · intro i hi t hti
        rw [List.foldl_cons]
        rcases List.mem_cons.mp hi with rfl | hi
        · exact (ih _).1 _ (hasNode_gatherStep_self s acc i t hti)
        · exact (ih _).2 i hi t hti

/-- What one boundary edge contributes to a region's gathered index list. -/
def gatherDelta (s : MeshState) (i : Nat) : List Int :=
  match twinOf s i with
  | none => []
  | some t => [nodeIdxOf s i, nodeIdxOf s t]

theorem gatherStep_snd (s : MeshState) (acc : Graph × List Int) (i : Nat) :
    (graphGatherStep s acc i).2 = acc.2 ++ gatherDelta s i := by
  obtain ⟨g, l⟩ := acc
  unfold graphGatherStep gatherDelta
  cases twinOf s i with
  | none => simp
  | some t => rfl

/-- The list component gathered by one region's walk does not depend on the
incoming accumulator. -/
theorem gather_snd (s : MeshState) (cyc : List Nat) :
    ∀ (g : Graph) (l : List Int),
      (cyc.foldl (graphGatherStep s) (g, l)).2 =
        l ++ (cyc.foldl (graphGatherStep s) (Graph.empty, [])).2 := by
  induction cyc with
  | nil => intro g l; simp
  | cons c cs ih =>
      intro g l
      rw [List.foldl_cons, List.foldl_cons]
      have h1 : ∀ (acc : Graph × List Int), (cs.foldl (graphGatherStep s) acc).2 =
          acc.2 ++ (cs.foldl (graphGatherStep s) (Graph.empty, [])).2 := by
        intro acc
        obtain ⟨g2, l2⟩ := acc
        exact ih g2 l2
      rw [h1 (graphGatherStep s (g, l) c), h1 (graphGatherStep s (Graph.empty, []) c),
        gatherStep_snd, gatherStep_snd]
      simp

theorem graphNodesPass_lists (s : MeshState) :
    (graphNodesPass s).2 = s.regions.map (gatherRegion s) := by
  unfold graphNodesPass gatherRegion
  suffices h : ∀ (rl : List Nat) (g : Graph) (acc : List (List Int)),
      (rl.foldl (fun (acc : Graph × List (List Int)) r =>
        let p := (cycleIds s (polyEdgeOf s r)).foldl (graphGatherStep s) (acc.1, [])
        (p.1, acc.2 ++ [p.2])) (g, acc)).2 =
      acc ++ rl.map (fun r => ((cycleIds s (polyEdgeOf s r)).foldl (graphGatherStep s)
        (Graph.empty, [])).2) by
    rw [h s.regions Graph.empty []]
    rfl
  intro rl
  induction rl with
  | nil => intro g acc; simp
  | cons r rs ih =>
      intro g acc
      rw [List.foldl_cons, List.map_cons]
      dsimp only []
      rw [ih, gather_snd s _ _ []]
      simp

theorem graphNodesPass_mono (s : MeshState) (rl : List Nat) :
    ∀ (acc : Graph × List (List Int)) (x : Int), hasNode acc.1 x = true →
      hasNode (rl.foldl (fun (acc : Graph × List (List Int)) r =>
        let p := (cycleIds s (polyEdgeOf s r)).foldl (graphGatherStep s) (acc.1, [])
        (p.1, acc.2 ++ [p.2])) acc).1 x = true := by
  induction rl with
  | nil => intro acc x h; exact h
  | cons y ys ih =>
      intro acc x h
      rw [List.foldl_cons]
      dsimp only []
      exact ih _ x ((hasNode_gatherFold s (cycleIds s (polyEdgeOf s y)) (acc.1, [])).1 x h)

theorem graphNodesPass_hasNode (s : MeshState) (r : Nat) (hr : r ∈ s.regions)
    (i : Nat) (hi : i ∈ cycleIds s (polyEdgeOf s r)) (t : Nat) (hti : twinOf s i = some t) :
    hasNode (graphNodesPass s).1 (nodeIdxOf s i) = true := by
  unfold graphNodesPass
  suffices h : ∀ (rl : List Nat) (acc : Graph × List (List Int)), r ∈ rl →
      hasNode (rl.foldl (fun (acc : Graph × List (List Int)) r =>
        let p := (cycleIds s (polyEdgeOf s r)).foldl (graphGatherStep s) (acc.1, [])
        (p.1, acc.2 ++ [p.2])) acc).1 (nodeIdxOf s i) = true from
    h s.regions (Graph.empty, []) hr
  intro rl
  induction rl with
  | nil => intro acc h; exact absurd h (List.not_mem_nil r)
  | cons x xs ih =>
      intro acc hmem
      rw [List.foldl_cons]
      dsimp only []
      rcases List.mem_cons.mp hmem with rfl | hmem
      · exact graphNodesPass_mono s xs _ _
          ((hasNode_gatherFold s (cycleIds s (polyEdgeOf s r)) (acc.1, [])).2 i hi t hti)
      · exact ih _ hmem

theorem gatherStep_gedges (s : MeshState) (acc : Graph × List Int) (i : Nat) :
    (graphGatherStep s acc i).1.gedges = acc.1.gedges := by
  obtain ⟨g, l⟩ := acc
  unfold graphGatherStep
  cases twinOf s i with
  | none => rfl
  | some t =>
      dsimp only []
      split <;> rfl

theorem graphNodesPass_gedges (s : MeshState) : (graphNodesPass s).1.gedges = [] := by
  unfold graphNodesPass
  rw [foldl_keep (fun (acc : Graph × List (List Int)) => acc.1.gedges) _
    (fun acc r => foldl_keep (fun (p : Graph × List Int) => p.1.gedges) (graphGatherStep s)
      (fun p i => gatherStep_gedges s p i) _ (acc.1, []))]
  rfl

theorem nodes_addPair (dist : Vec3 → Vec3 → ℚ) (g : Graph) (a b : Int) :
    (addPair dist g a b).nodes = g.nodes := by
  unfold addPair
  split
  · split <;> rfl
  · rfl

theorem nodes_addPairsFor (dist : Vec3 → Vec3 → ℚ) (g : Graph) (l : List Int) :
    (addPairsFor dist g l).nodes = g.nodes :=
  foldl_keep (fun g => g.nodes) _
    (fun g1 a => foldl_keep (fun g => g.nodes) _ (fun g2 b => nodes_addPair dist g2 a b) l g1)
    l g

theorem nodes_phase2 (dist : Vec3 → Vec3 → ℚ) (ls : List (List Int)) (g : Graph) :
    (ls.foldl (addPairsFor dist) g).nodes = g.nodes :=
  foldl_keep (fun g => g.nodes) _ (fun g1 L => nodes_addPairsFor dist g1 L) ls g

theorem hasNode_nodes_congr (g g' : Graph) (h : g.nodes = g'.nodes) (x : Int) :
    hasNode g x = hasNode g' x := by
  unfold hasNode
  rw [h]

theorem getNodePos_nodes_congr (g g' : Graph) (h : g.nodes = g'.nodes) (x : Int) :
    getNodePos g x = getNodePos g' x := by
  unfold getNodePos
  rw [h]

theorem hasEdge_addEdge_mono (g : Graph) (e : NavEdge) (a b : Int)
    (h : hasEdge g a b = true) : hasEdge (addEdge g e) a b = true := by
  unfold hasEdge at h
  unfold hasEdge addEdge
  rw [List.any_append]
  simp [h]

theorem hasEdge_addPair_mono (dist : Vec3 → Vec3 → ℚ) (g : Graph) (x y a b : Int)
    (h : hasEdge g a b = true) : hasEdge (addPair dist g x y) a b = true := by
  unfold addPair
  split
  · split
    · exact h
    · exact hasEdge_addEdge_mono g _ a b h
  · exact h

theorem hasEdge_addPair_self (dist : Vec3 → Vec3 → ℚ) (g : Graph) (a b : Int)
    (hne : a ≠ b) : hasEdge (addPair dist g a b) a b = true := by
  unfold addPair
  rw [if_pos hne]
  split
  · next h => exact h
  · unfold hasEdge addEdge
    rw [List.any_append]
    simp

theorem hasEdge_innerFold_mono (dist : Vec3 → Vec3 → ℚ) (a : Int) (l : List Int) :
    ∀ (g : Graph) (x y : Int), hasEdge g x y = true →
      hasEdge (l.foldl (fun g2 b => addPair dist g2 a b) g) x y = true := by
  induction l with
  | nil => intro g x y h; exact h
  | cons c cs ih =>
      intro g x y h
      rw [List.foldl_cons]
      exact ih _ x y (hasEdge_addPair_mono dist g a c x y h)

theorem hasEdge_innerFold_cover (dist : Vec3 → Vec3 → ℚ) (a : Int) (l : List Int) :
    ∀ (g : Graph), ∀ b ∈ l, a ≠ b →
      hasEdge (l.foldl (fun g2 b => addPair dist g2 a b) g) a b = true := by
  induction l with
  | nil => intro g b hb; exact absurd hb (List.not_mem_nil b)
  | cons c cs ih =>
      intro g b hb hne
      rw [List.foldl_cons]
      rcases List.mem_cons.mp hb with rfl | hb
      · exact hasEdge_innerFold_mono dist a cs _ a b (hasEdge_addPair_self dist g a b hne)
      · exact ih _ b hb hne

theorem hasEdge_outerFold_mono (dist : Vec3 → Vec3 → ℚ) (L : List Int) (l2 : List Int) :
    ∀ (g : Graph) (x y : Int), hasEdge g x y = true →
      hasEdge (l2.foldl (fun g1 a => L.foldl (fun g2 b => addPair dist g2 a b) g1) g) x y
        = true := by
  induction l2 with
  | nil => intro g x y h; exact h
  | cons c cs ih =>
      intro g x y h
      rw [List.foldl_cons]
      exact ih _ x y (hasEdge_innerFold_mono dist c L g x y h)

theorem hasEdge_addPairsFor_mono (dist : Vec3 → Vec3 → ℚ) (L : List Int)
    (g : Graph) (x y : Int) (h : hasEdge g x y = true) :
    hasEdge (addPairsFor dist g L) x y = true :=
  hasEdge_outerFold_mono dist L L g x y h

theorem addPairsFor_cover (dist : Vec3 → Vec3 → ℚ) (L : List Int) :
    ∀ (l2 : List Int), ∀ (g : Graph), ∀ a ∈ l2, ∀ b ∈ L, a ≠ b →
      hasEdge (l2.foldl (fun g1 a => L.foldl (fun g2 b => addPair dist g2 a b) g1) g) a b
        = true := by
  intro l2
  induction l2 with
  | nil => intro g a ha; exact absurd ha (List.not_mem_nil a)
  | cons c cs ih =>
      intro g a ha b hb hne
      rw [List.foldl_cons]
      rcases List.mem_cons.mp ha with rfl | ha
      · exact hasEdge_outerFold_mono dist L cs _ a b
          (hasEdge_innerFold_cover dist a L g b hb hne)
      · exact ih _ a ha b hb hne

/-- Every navigation edge present carries the external distance between the
positions of the nodes its endpoints name. -/
def CostInv (dist : Vec3 → Vec3 → ℚ) (g : Graph) : Prop :=
  ∀ e ∈ g.gedges, e.cost = dist (getNodePos g e.frm) (getNodePos g e.tov)

theorem costInv_addPair (dist : Vec3 → Vec3 → ℚ) (g : Graph) (a b : Int)
    (h : CostInv dist g) : CostInv dist (addPair dist g a b) := by
  unfold addPair
  split
  · split
    · exact h
    · intro e he
      unfold addEdge at he
      rcases List.mem_append.mp he with he | he
      · exact h e he
      · rw [List.mem_singleton.mp he]
        rfl
  · exact h

theorem costInv_innerFold (dist : Vec3 → Vec3 → ℚ) (a : Int) (l : List Int) :
    ∀ (g : Graph), CostInv dist g →
      CostInv dist (l.foldl (fun g2 b => addPair dist g2 a b) g) := by
  induction l with
  | nil => intro g h; exact h
  | cons c cs ih =>
      intro g h
      rw [List.foldl_cons]
      exact ih _ (costInv_addPair dist g a c h)

theorem costInv_addPairsFor (dist : Vec3 → Vec3 → ℚ) (L : List Int) :
    ∀ (l2 : List Int) (g : Graph), CostInv dist g →
      CostInv dist (l2.foldl (fun g1 a => L.foldl (fun g2 b => addPair dist g2 a b) g1) g) := by
  intro l2
  induction l2 with
  | nil => intro g h; exact h
  | cons c cs ih =>
      intro g h
      rw [List.foldl_cons]
      exact ih _ (costInv_innerFold dist c L g h)

theorem costInv_phase2 (dist : Vec3 → Vec3 → ℚ) (ls : List (List Int)) :
    ∀ (g : Graph), CostInv dist g → CostInv dist (ls.foldl (addPairsFor dist) g) := by
  induction ls with
  | nil => intro g h; exact h
  | cons L Ls ih =>
      intro g h
      rw [List.foldl_cons]
      exact ih _ (costInv_addPairsFor dist L L g h)

theorem listsFold_mono (dist : Vec3 → Vec3 → ℚ) (ls : List (List Int)) :
    ∀ (g : Graph) (x y : Int), hasEdge g x y = true →
      hasEdge (ls.foldl (addPairsFor dist) g) x y = true := by
  induction ls with
  | nil => intro g x y h; exact h
  | cons L Ls ih =>
      intro g x y h
      rw [List.foldl_cons]
      exact ih _ x y (hasEdge_addPairsFor_mono dist L g x y h)

theorem listsFold_cover (dist : Vec3 → Vec3 → ℚ) (ls : List (List Int)) :
    ∀ (g : Graph), ∀ L ∈ ls, ∀ a ∈ L, ∀ b ∈ L, a ≠ b →
      hasEdge (ls.foldl (addPairsFor dist) g) a b = true := by
  induction ls with
  | nil => intro g L hL; exact absurd hL (List.not_mem_nil L)
  | cons L0 Ls ih =>
      intro g L hL a ha b hb hne
      rw [List.foldl_cons]
      rcases List.mem_cons.mp hL with rfl | hL
      · exact listsFold_mono dist Ls _ a b (addPairsFor_cover dist L L g a ha b hb hne)
      · exact ih _ L hL a ha b hb hne

/-- C3: after `_buildGraph` on the indexed mesh, for every region and every
ordered pair of distinct node indices it exposes through twin-bearing
boundary edges, the navigation graph holds both directed edges, the two
nodes exist, and every edge's cost is the external distance between the
positions of its endpoint nodes.  `Hcov` is the manifoldness condition that
every exposed index — including each `edge.twin.nodeIndex` — is also some
surviving twin-bearing edge's own index, which guarantees its node was
inserted during the node pass (on a malformed mesh the source would instead
crash dereferencing a missing node). -/
theorem buildGraph_connectivity (dist : Vec3 → Vec3 → ℚ) (s : MeshState)
    (Hcov : ∀ r ∈ s.regions, ∀ a ∈ gatherRegion s r,
      ∃ r2 ∈ s.regions, ∃ i ∈ cycleIds s (polyEdgeOf s r2),
        twinOf s i ≠ none ∧ nodeIdxOf s i = a) :
    (∀ e ∈ (buildGraph dist s).gedges,
      e.cost = dist (getNodePos (buildGraph dist s) e.frm)
        (getNodePos (buildGraph dist s) e.tov)) ∧
      ∀ r ∈ s.regions, ∀ a ∈ gatherRegion s r, ∀ b ∈ gatherRegion s r, a ≠ b →
        hasNode (buildGraph dist s) a = true ∧ hasNode (buildGraph dist s) b = true ∧
          hasEdge (buildGraph dist s) a b = true ∧ hasEdge (buildGraph dist s) b a = true := by
  have hbg : buildGraph dist s =
      ((graphNodesPass s).2).foldl (addPairsFor dist) (graphNodesPass s).1 := rfl
  have hnode : ∀ a, (∃ r2 ∈ s.regions, ∃ i ∈ cycleIds s (polyEdgeOf s r2),
      twinOf s i ≠ none ∧ nodeIdxOf s i = a) → hasNode (buildGraph dist s) a = true := by
    rintro a ⟨r2, hr2, i, hi, hti, rfl⟩
    cases ht : twinOf s i with
    | none => exact absurd ht hti
    | some t =>
        rw [hbg, hasNode_nodes_congr _ (graphNodesPass s).1 (nodes_phase2 dist _ _)]
        exact graphNodesPass_hasNode s r2 hr2 i hi t ht
  constructor
  · rw [hbg]
    apply costInv_phase2
    intro e he
    rw [graphNodesPass_gedges] at he
    exact absurd he (List.not_mem_nil e)
  · intro r hr a ha b hb hne
    refine ⟨hnode a (Hcov r hr a ha), hnode b (Hcov r hr b hb), ?_, ?_⟩
    · rw [hbg]
      apply listsFold_cover dist _ _ (gatherRegion s r) _ a ha b hb hne
      rw [graphNodesPass_lists]
      exact List.mem_map_of_mem (gatherRegion s) hr
    · rw [hbg]
      apply listsFold_cover dist _ _ (gatherRegion s r) _ b hb a ha (Ne.symm hne)
      rw [graphNodesPass_lists]
      exact List.mem_map_of_mem (gatherRegion s) hr

theorem buildGraph_connectivity_wit :
    (0 : Int) ∈ gatherRegion (buildNodeIndices meshSqTri) 0 ∧
      (1 : Int) ∈ gatherRegion (buildNodeIndices meshSqTri) 0 ∧
      hasEdge (buildGraph sqDist (buildNodeIndices meshSqTri)) 0 1 = true ∧
      hasEdge (buildGraph sqDist (buildNodeIndices meshSqTri)) 1 0 = true ∧
      ∀ e ∈ (buildGraph sqDist (buildNodeIndices meshSqTri)).gedges,
        e.cost = sqDist (getNodePos (buildGraph sqDist (buildNodeIndices meshSqTri)) e.frm)
          (getNodePos (buildGraph sqDist (buildNodeIndices meshSqTri)) e.tov) := by
  have h := buildGraph_connectivity sqDist (buildNodeIndices meshSqTri)
    (by with_unfolding_all decide)
  have h2 := h.2 0 (by with_unfolding_all decide) 0 (by with_unfolding_all decide)
    1 (by with_unfolding_all decide) (by decide)
  exact ⟨by with_unfolding_all decide, by with_unfolding_all decide,
    h2.2.2.1, h2.2.2.2, h.1⟩

/-! ## Node index deduplication (C4) -/

theorem lookupIdx_append_some (m l2 : List (Nat × Vec3)) (p : Vec3) (k : Nat)
    (h : lookupIdx m p = some k) : lookupIdx (m ++ l2) p = some k := by
  unfold lookupIdx at h ⊢
  rw [List.find?_append]
  cases hf : m.find? (fun ip => decide (ip.2 = p)) with
  | none => rw [hf] at h; exact Option.noConfusion h
  | some e => rw [hf] at h; simpa using h

theorem lookupIdx_append_self (m : List (Nat × Vec3)) (p : Vec3) (n : Nat)
    (h : lookupIdx m p = none) : lookupIdx (m ++ [(n, p)]) p = some n := by
  unfold lookupIdx at h ⊢
  rw [List.find?_append]
  cases hf : m.find? (fun ip => decide (ip.2 = p)) with
  | none => simp [List.find?]
  | some e =>
      rw [hf] at h
      simp at h

/-- The invariant of the node-index walk after processing the edges of
`done`: only `nodeIndex` fields were rewritten, the indices map enumerates
consecutive indices, and every processed twin-bearing edge carries the index
the final first-match scan yields for its position. -/
def NInv (s : MeshState) (done : List Nat) (st : NIState) : Prop :=
  st.edges.length = s.edges.length ∧
    (∀ j, (geta st.edges j).vertex = vertexOf s j) ∧
    (∀ j, (geta st.edges j).next = nextOf s j) ∧
    (∀ j, (geta st.edges j).twin = twinOf s j) ∧
    st.imap.map Prod.fst = List.range st.nidx ∧
    ∀ i ∈ done, ∀ t, twinOf s i = some t →
      ∃ k, lookupIdx st.imap (vertexOf s i) = some k ∧
        (geta st.edges i).nodeIndex = Int.ofNat k

theorem niStep_inv (s : MeshState) (i : Nat)
    (hri : i < s.edges.length)
    (hrt : ∀ t, twinOf s i = some t → t < s.edges.length ∧ nextOf s t < s.edges.length)
    (hg : ∀ t, twinOf s i = some t → vertexOf s (nextOf s t) = vertexOf s i)
    (done : List Nat) (st : NIState) (h : NInv s done st) :
    NInv s (done ++ [i]) (niStep st i) := by
  obtain ⟨hlen, hvtx, hnx, htw, hmap, hdone⟩ := h
  unfold niStep
  rw [htw i]
  cases hti : twinOf s i with
  | none =>
      refine ⟨hlen, hvtx, hnx, htw, hmap, ?_⟩
      intro x hx t hxt
      rcases List.mem_append.mp hx with hx | hx
      · exact hdone x hx t hxt
      · rw [List.mem_singleton.mp hx] at hxt
        rw [hxt] at hti
        exact Option.noConfusion hti
  | some t =>
      dsimp only []
      rw [hvtx i]
      obtain ⟨hrt1, hrt2⟩ := hrt t hti
      -- the index chosen and the updated map, in both lookup outcomes
      have key : ∀ (k : Nat) (m : List (Nat × Vec3)) (nx : Nat),
          (match lookupIdx st.imap (vertexOf s i) with
            | some k => (k, st.imap, st.nidx)
            | none => (st.nidx, st.imap ++ [(st.nidx, vertexOf s i)], st.nidx + 1)) = (k, m, nx) →
          lookupIdx m (vertexOf s i) = some k ∧
            (∀ (p : Vec3) (k2 : Nat), lookupIdx st.imap p = some k2 → lookupIdx m p = some k2) ∧
            m.map Prod.fst = List.range nx := by
        intro k m nx hkm
        cases hl : lookupIdx st.imap (vertexOf s i) with
        | some k0 =>
            rw [hl] at hkm
            obtain ⟨rfl, rfl, rfl⟩ : k0 = k ∧ st.imap = m ∧ st.nidx = nx := by
              refine ⟨?_, ?_, ?_⟩ <;> cases hkm <;> rfl
            exact ⟨hl, fun p k2 hp => hp, hmap⟩
        | none =>
            rw [hl] at hkm
            obtain ⟨rfl, rfl, rfl⟩ : st.nidx = k ∧ st.imap ++ [(st.nidx, vertexOf s i)] = m ∧
                st.nidx + 1 = nx := by
              refine ⟨?_, ?_, ?_⟩ <;> cases hkm <;> rfl
            refine ⟨lookupIdx_append_self _ _ _ hl, fun p k2 hp => lookupIdx_append_some _ _ _ _ hp, ?_⟩
            rw [List.map_append, hmap, List.range_succ]
            rfl
      cases hkm : (match lookupIdx st.imap (vertexOf s i) with
            | some k => (k, st.imap, st.nidx)
            | none => (st.nidx, st.imap ++ [(st.nidx, vertexOf s i)], st.nidx + 1)) with
      | mk k mnx =>
          obtain ⟨m, nx⟩ := mnx
          obtain ⟨hlook, hstable, hmap2⟩ := key k m nx hkm
          dsimp only []
          -- the propagation target: edge.twin.next, whose position equals the edge's
          have htn : (geta (setNodeIdx st.edges i (Int.ofNat k)) t).next = nextOf s t := by
            rw [geta_setNodeIdx_next, hnx t]
          rw [htn]
          set es2 := setNodeIdx (setNodeIdx st.edges i (Int.ofNat k)) (nextOf s t) (Int.ofNat k)
            with hes2
          have hlen2 : es2.length = s.edges.length := by
            rw [hes2, length_setNodeIdx, length_setNodeIdx, hlen]
          refine ⟨hlen2, ?_, ?_, ?_, hmap2, ?_⟩
          · intro j
            rw [hes2, geta_setNodeIdx_vertex, geta_setNodeIdx_vertex, hvtx j]
          · intro j
            rw [hes2, geta_setNodeIdx_next, geta_setNodeIdx_next, hnx j]
          · intro j
            rw [hes2, geta_setNodeIdx_twin, geta_setNodeIdx_twin, htw j]
          · -- every processed edge still carries the first-match index of its position
            have hread : ∀ j, (geta es2 j).nodeIndex = (geta st.edges j).nodeIndex ∨
                ((geta es2 j).nodeIndex = Int.ofNat k ∧
                  (j = i ∨ j = nextOf s t)) := by
              intro j
              rcases eq_or_ne (nextOf s t) j with rfl | hj2
              · right
                refine ⟨?_, Or.inr rfl⟩
                rw [hes2, geta_setNodeIdx_eq _ _ _ (by rw [length_setNodeIdx, hlen]; exact hrt2)]
              · rcases eq_or_ne i j with rfl | hj1
                · right
                  refine ⟨?_, Or.inl rfl⟩
                  rw [hes2, geta_setNodeIdx_ne _ _ _ _ hj2,
                    geta_setNodeIdx_eq _ _ _ (by rw [hlen]; exact hri)]
                · left
                  rw [hes2, geta_setNodeIdx_ne _ _ _ _ hj2, geta_setNodeIdx_ne _ _ _ _ hj1]
            intro x hx t2 hxt
            have hvx : lookupIdx m (vertexOf s x) = some k → True := fun _ => trivial
            rcases hread x with hsame | ⟨hval, hxcase⟩
            · rcases List.mem_append.mp hx with hxd | hxs
              · obtain ⟨k2, hk2, hk2v⟩ := hdone x hxd t2 hxt
                exact ⟨k2, hstable _ _ hk2, by rw [hsame]; exact hk2v⟩
              · -- x = i, yet its stored index was not overwritten: it was,
                -- by the write at i itself — fall back to the overwrite case
                rw [List.mem_singleton.mp hxs] at hsame ⊢
                refine ⟨k, hlook, ?_⟩
                by_cases hit : i = nextOf s t
                · rw [hes2, ← hit,
                    geta_setNodeIdx_eq _ _ _ (by rw [length_setNodeIdx, hlen]; exact hri)]
                · rw [hes2, geta_setNodeIdx_ne _ _ _ _ (fun hh => hit hh.symm),
                    geta_setNodeIdx_eq _ _ _ (by rw [hlen]; exact hri)]
            · -- x was overwritten with the fresh index k
              refine ⟨k, ?_, hval⟩
              rcases hxcase with rfl | rfl
              · exact hlook
              · rw [hg t hti]
                exact hlook

theorem niFold_inv (s : MeshState) :
    ∀ (rest : List Nat),
      (∀ i ∈ rest, i < s.edges.length ∧
        (∀ t, twinOf s i = some t → t < s.edges.length ∧ nextOf s t < s.edges.length) ∧
        (∀ t, twinOf s i = some t → vertexOf s (nextOf s t) = vertexOf s i)) →
      ∀ (done : List Nat) (st : NIState), NInv s done st →
        NInv s (done ++ rest) (rest.foldl niStep st) := by
  intro rest
  induction rest with
  | nil => intro _ done st h; simpa using h
  | cons x xs ih =>
      intro hall done st h
      rw [List.foldl_cons]
      have hx := hall x (List.mem_cons_self x xs)
      have h2 := niStep_inv s x hx.1 hx.2.1 hx.2.2 done st h
      have h3 := ih (fun i hi => hall i (List.mem_cons_of_mem x hi)) (done ++ [x]) _ h2
      rwa [List.append_assoc, List.singleton_append] at h3

/-- C4: after the node-index pass, node index assignment deduplicates by
value equality — any two twin-bearing half-edges of surviving regions whose
`from()` positions are equal carry the same node index; every assigned index
is the first-match index of the edge's position in the final indices map,
whose keys are the consecutive integers 0, 1, …; the assignment also
propagates through `edge.twin.next`, whose position equals the edge's
(hypothesis `Hg`, the geometric consistency of twin links that discovery
establishes; `Hr` bounds the handles, as in any well-formed mesh). -/
theorem buildNodeIndices_dedup (s : MeshState)
    (Hr : ∀ i ∈ allCycleEdges s, i < s.edges.length ∧
      ∀ t, twinOf s i = some t → t < s.edges.length ∧ nextOf s t < s.edges.length)
    (Hg : ∀ i ∈ allCycleEdges s, ∀ t, twinOf s i = some t →
      vertexOf s (nextOf s t) = vertexOf s i) :
    ((buildNodeIndicesRun s).imap.map Prod.fst = List.range (buildNodeIndicesRun s).nidx) ∧
      (∀ i ∈ allCycleEdges s, ∀ t, twinOf s i = some t →
        ∃ k, lookupIdx (buildNodeIndicesRun s).imap (vertexOf s i) = some k ∧
          nodeIdxOf (buildNodeIndices s) i = Int.ofNat k) ∧
      ∀ i1 ∈ allCycleEdges s, ∀ i2 ∈ allCycleEdges s,
        twinOf s i1 ≠ none → twinOf s i2 ≠ none → vertexOf s i1 = vertexOf s i2 →
          nodeIdxOf (buildNodeIndices s) i1 = nodeIdxOf (buildNodeIndices s) i2 := by
  have hbase : NInv s [] ⟨s.edges, [], 0⟩ :=
    ⟨rfl, fun _ => rfl, fun _ => rfl, fun _ => rfl, rfl, fun x hx => absurd hx (List.not_mem_nil x)⟩
  have hinv := niFold_inv s (allCycleEdges s)
    (fun i hi => ⟨(Hr i hi).1, (Hr i hi).2, Hg i hi⟩) [] ⟨s.edges, [], 0⟩ hbase
  rw [List.nil_append] at hinv
  obtain ⟨_, _, _, _, hmap, hassigned⟩ := hinv
  refine ⟨hmap, ?_, ?_⟩
  · intro i hi t hit
    exact hassigned i hi t hit
  · intro i1 h1 i2 h2 ht1 ht2 hv
    cases hti1 : twinOf s i1 with
    | none => exact absurd hti1 ht1
    | some t1 =>
        cases hti2 : twinOf s i2 with
        | none => exact absurd hti2 ht2
        | some t2 =>
            obtain ⟨k1, hk1, hv1⟩ := hassigned i1 h1 t1 hti1
            obtain ⟨k2, hk2, hv2⟩ := hassigned i2 h2 t2 hti2
            rw [hv] at hk1
            rw [hk1] at hk2
            obtain rfl : k1 = k2 := by injection hk2
            exact hv1.trans hv2.symm

theorem buildNodeIndices_dedup_wit :
    ((buildNodeIndicesRun meshSqTri).imap.map Prod.fst =
        List.range (buildNodeIndicesRun meshSqTri).nidx) ∧
      (∀ i ∈ allCycleEdges meshSqTri, ∀ t, twinOf meshSqTri i = some t →
        ∃ k, lookupIdx (buildNodeIndicesRun meshSqTri).imap (vertexOf meshSqTri i) = some k ∧
          nodeIdxOf (buildNodeIndices meshSqTri) i = Int.ofNat k) ∧
      ∀ i1 ∈ allCycleEdges meshSqTri, ∀ i2 ∈ allCycleEdges meshSqTri,
        twinOf meshSqTri i1 ≠ none → twinOf meshSqTri i2 ≠ none →
          vertexOf meshSqTri i1 = vertexOf meshSqTri i2 →
          nodeIdxOf (buildNodeIndices meshSqTri) i1 = nodeIdxOf (buildNodeIndices meshSqTri) i2 :=
  buildNodeIndices_dedup meshSqTri (by decide) (by with_unfolding_all decide)

theorem fromPolygons_twin_symmetry_wit :
    twinOf (fromPolygons convexXZ sqDist meshSqTriRaw).1 1 = some 4 ∧
      twinOf (fromPolygons convexXZ sqDist meshSqTriRaw).1 4 = some 1 :=
  ⟨by with_unfolding_all decide,
   fromPolygons_twin_symmetry convexXZ sqDist meshSqTriRaw (by decide)
     (by decide) (by with_unfolding_all decide) 1 4 (by with_unfolding_all decide)⟩

end Yuka
